import Mathlib

/-!
The private-bin allowlist of firejail, `fs_bin.c`.

A shallow embedding of `src/firejail/fs_bin.c`.  C strings are `String`s, the
host file system and the helpers that live outside this file are read through
the oracles of `Host`, the configuration through `Config`, and what the code
does to the outside world is recorded as a list of `Event`s.  Running out of
memory (`asprintf`, `strdup`) is not modelled, the copy helper started by
`sbox_run` is recorded as a request, and the debug output is left out.
-/

namespace FsBin

/-! ## C library string functions -/

/-- The suffix of the haystack starting at the first occurrence of the needle,
as `strstr(3)` returns it; `none` is the null pointer. -/
def strstrList : List Char → List Char → Option (List Char)
  | [], needle => if needle = [] then some [] else none
  | h :: t, needle =>
    if needle.isPrefixOf (h :: t) then some (h :: t) else strstrList t needle

/-- The function `strstr(3)` on strings. -/
def strstr (haystack needle : String) : Option String :=
  (strstrList haystack.data needle.data).map String.mk

/-- The suffix starting at the last occurrence of the character, as
`strrchr(3)` returns it; `none` is the null pointer. -/
def strrchrList (c : Char) : List Char → Option (List Char)
  | [] => none
  | x :: xs =>
    match strrchrList c xs with
    | some r => some r
    | none => if x = c then some (x :: xs) else none

/-- The function `strrchr(3)` on strings. -/
def strrchr (s : String) (c : Char) : Option String :=
  (strrchrList c s.data).map String.mk

/-- One call of `strtok(3)` with the delimiter set `","`, started at the saved
position: leading delimiters are skipped; if nothing is left the result is
`none` (the null pointer); otherwise the token runs up to the next delimiter,
which is overwritten, and the position after it is saved. -/
def strtok (save : List Char) : Option (List Char × List Char) :=
  match save.dropWhile (fun c => c == ',') with
  | [] => none
  | c :: cs =>
    some ((c :: cs).takeWhile (fun x => x != ','),
          ((c :: cs).dropWhile (fun x => x != ',')).tail)

/-! ## The world outside `fs_bin.c` -/

/-- The file types `stat(2)` tells apart in `st_mode`. -/
inductive FileType
  | reg | dir | chr | blk | fifo | sock
  deriving DecidableEq, Repr

/-- The macro `S_ISDIR`. -/
def S_ISDIR (t : FileType) : Bool := t == FileType.dir

/-- The host as the code reads it.  The staging phase only writes below
`RUN_BIN_DIR`, which is none of `paths`, and no entry of `paths` lies below
another one, so one snapshot serves a whole run. -/
structure Host where
  /-- The call `stat(2)`, which follows symbolic links: the file type, or `none` on failure. -/
  stat : String → Option FileType
  /-- The helper `is_link` of `util.c`: the name itself is a symbolic link. -/
  is_link : String → Bool
  /-- The call `realpath(3)`: the canonical path, or `none` for the null pointer. -/
  realpath : String → Option String
  /-- The path names a `glob(3)` pattern matches, in directory order, or `none`
  when the glob engine reports an error.  With `GLOB_PERIOD` a leading period is
  matched by wildcards, so the entries `.` and `..` are among the matches of a
  pattern such as `*`. -/
  glob_match : String → Option (List String)
  /-- The helper `invalid_filename` of `util.c`: `true` when it terminates the process. -/
  invalid_filename : String → Bool
  /-- The call `fopen(file, "w")`: `true` when a stream is returned. -/
  fopen : String → Bool
  /-- The call `mount(source, target, NULL, MS_BIND | MS_REC, NULL)`: `true`
  when it returns 0. -/
  mount : String → String → Bool

/-- The call `glob(pattern, GLOB_NOCHECK | GLOB_NOSORT | GLOB_PERIOD, ...)`:
with `GLOB_NOCHECK` a pattern without a match is returned itself. -/
def glob (h : Host) (pattern : String) : Option (List String) :=
  (h.glob_match pattern).map fun ms => if ms = [] then [pattern] else ms

/-- The configuration values and build-time macros the file reads. -/
structure Config where
  /-- The value of `checkcfg(CFG_PRIVATE_BIN_NO_LOCAL)`. -/
  private_bin_no_local : Bool
  /-- The value of `checkcfg(CFG_FOLLOW_SYMLINK_PRIVATE_BIN)`. -/
  follow_symlink_private_bin : Bool
  /-- The flag `arg_private_lib`. -/
  arg_private_lib : Bool
  /-- The allowlist `cfg.bin_private_keep`. -/
  bin_private_keep : String
  /-- The macro `RUN_BIN_DIR`, the staging directory. -/
  RUN_BIN_DIR : String
  /-- The macro `RUN_LIB_BIN`, the manifest file. -/
  RUN_LIB_BIN : String
  /-- The macro `PATH_FCOPY`, the copy helper. -/
  PATH_FCOPY : String

/-- What a run does to the outside world, in order. -/
inductive Event
  /-- The call `mkdir_attr(dir, 0755, 0, 0)`. -/
  | mkdir_attr (dir : String)
  /-- The call `fopen(file, "w")` for the manifest. -/
  | fopen (file : String)
  /-- Text written to the manifest by `fprintf(fplist, ...)`. -/
  | fprintf (text : String)
  /-- The call `sbox_run(SBOX_ROOT | SBOX_SECCOMP, n, args...)`. -/
  | sbox_run (args : List String)
  /-- The audit entry `fs_logger2(msg1, msg2)`. -/
  | fs_logger2 (msg1 msg2 : String)
  /-- The call `fs_logger_print()`. -/
  | fs_logger_print
  /-- The call `fclose(fplist)`. -/
  | fclose
  /-- The call `mount(source, target, NULL, MS_BIND | MS_REC, NULL)`. -/
  | mount (source target : String)
  deriving DecidableEq, Repr

/-- The ways the code ends the process. -/
inductive Fatal
  /-- The `exit(1)` of `duplicate` after `Error: "%s" is an invalid filename`. -/
  | invalid_filename (fname : String)
  /-- The helper `invalid_filename` of `util.c` ended the process. -/
  | general_check (fname : String)
  /-- The `exit(1)` of `globbing` after `Error: failed to glob private-bin pattern %s`. -/
  | glob_failed (pattern : String)
  /-- The `assert(fname)` of `globbing` met a null pointer. -/
  | assert_fname
  /-- The `errExit("fopen")` of `fs_private_bin_list`. -/
  | fopen
  /-- The `errExit("mount bind")` of `fs_private_bin_list` at a directory. -/
  | mount_bind (dir : String)
  deriving DecidableEq, Repr

/-- The outcome of a call: the events it caused and, when the process was
ended inside it, how; `exit = none` means that the call returned. -/
structure Result where
  trace : List Event
  exit : Option Fatal
  deriving DecidableEq, Repr

/-- The call returned without doing anything. -/
def Result.skip : Result := ⟨[], none⟩

/-- Sequencing of two pieces of code: the second runs only if the first returned. -/
def Result.andThen (r : Result) (k : Result) : Result :=
  match r.exit with
  | some e => ⟨r.trace, some e⟩
  | none => ⟨r.trace ++ k.trace, k.exit⟩

/-- Calls of `f` on the elements of a list, one after the other. -/
def for_each {α : Type} (f : α → Result) : List α → Result
  | [] => Result.skip
  | x :: xs => (f x).andThen (for_each f xs)

/-! ## `fs_bin.c` -/

/-- The array `paths[]`, without its terminating `NULL`. -/
def paths : List String :=
  ["/usr/local/bin", "/usr/bin", "/bin", "/usr/games",
   "/usr/local/games", "/usr/local/sbin", "/usr/sbin", "/sbin"]

/-- The test `checkcfg(CFG_PRIVATE_BIN_NO_LOCAL) && strstr(paths[i], "local/")`
that makes each of the three loops skip a directory. -/
def skip_local (cfg : Config) (path : String) : Bool :=
  cfg.private_bin_no_local && (strstr path "local/").isSome

/-- The `while (paths[i])` loop of `check_dir_or_file`, from the directory at
the head of the list on; the result is `paths[i]` or `none` for `NULL`. -/
def check_dir_or_file_loop (h : Host) (cfg : Config) (name : String) :
    List String → Option String
  | [] => none
  | p :: rest =>
    if skip_local cfg p then check_dir_or_file_loop h cfg name rest
    else
      let fname := p ++ "/" ++ name
      match h.stat fname with
      | none => check_dir_or_file_loop h cfg name rest
      | some t =>
        if S_ISDIR t then check_dir_or_file_loop h cfg name rest
        else if p = "/usr/local/bin" ∧ h.is_link fname = true then
          match h.realpath fname with
          | none => some p
          | some actual_path =>
            match strstr actual_path "/firejail" with
            | none => some p
            | some ptr =>
              if ptr.length = "/firejail".length then
                check_dir_or_file_loop h cfg name rest
              else some p
        else some p

/-- The function `check_dir_or_file`. -/
def check_dir_or_file (h : Host) (cfg : Config) (name : String) : Option String :=
  check_dir_or_file_loop h cfg name paths

/-- The `while (paths[i])` loop of `valid_full_path_file`: the value of `found`. -/
def valid_full_path_file_loop (cfg : Config) (full_name fname : String) :
    List String → Bool
  | [] => false
  | p :: rest =>
    if skip_local cfg p then valid_full_path_file_loop cfg full_name fname rest
    else if full_name = p ++ "/" ++ fname then true
    else valid_full_path_file_loop cfg full_name fname rest

/-- The function `valid_full_path_file`; `true` is the return value 1. -/
def valid_full_path_file (h : Host) (cfg : Config) (name : String) : Bool :=
  match h.realpath name with
  | none => false
  | some full_name =>
    match strrchr full_name '/' with
    | none => false
    | some ptr =>
      let fname : String := ⟨ptr.data.tail⟩
      if fname = "" then false
      else valid_full_path_file_loop cfg full_name fname paths

/-- The first test of `duplicate`: `*fname == '~' || strstr(fname, "..")`. -/
def tilde_or_dotdot (fname : String) : Bool :=
  fname.data.head? == some '~' || (strstr fname "..").isSome

/-- The resolution step of `duplicate`: `full_path`, or `none` where the code returns early. -/
def resolve (h : Host) (cfg : Config) (fname : String) : Option String :=
  if fname.data.head? = some '/' then
    if valid_full_path_file h cfg fname then some fname else none
  else
    match check_dir_or_file h cfg fname with
    | none => none
    | some path => some (path ++ "/" ++ fname)

/-- The copy step of `duplicate` for the resolved `full_path`. -/
def copy_file (h : Host) (cfg : Config) (full_path : String) : List Event :=
  if cfg.follow_symlink_private_bin then
    [Event.sbox_run [cfg.PATH_FCOPY, "--follow-link", full_path, cfg.RUN_BIN_DIR]]
  else
    (if h.is_link full_path then
      match h.realpath full_path with
      | none => []
      | some actual_path =>
        if valid_full_path_file h cfg actual_path then
          [Event.sbox_run [cfg.PATH_FCOPY, actual_path, cfg.RUN_BIN_DIR]]
        else []
     else [])
    ++ [Event.sbox_run [cfg.PATH_FCOPY, full_path, cfg.RUN_BIN_DIR]]

/-- The function `duplicate`; `fplist` tells whether the manifest sink is open. -/
def duplicate (h : Host) (cfg : Config) (fname : String) (fplist : Bool) : Result :=
  if tilde_or_dotdot fname then ⟨[], some (Fatal.invalid_filename fname)⟩
  else if h.invalid_filename fname then ⟨[], some (Fatal.general_check fname)⟩
  else
    match resolve h cfg fname with
    | none => Result.skip
    | some full_path =>
      ⟨(if fplist then [Event.fprintf (full_path ++ "\n")] else [])
        ++ copy_file h cfg full_path
        ++ [Event.fs_logger2 "clone" fname], none⟩

/-- The test of `globbing` for a globbing character in the token. -/
def has_glob_char (fname : String) : Bool :=
  (strrchr fname '*').isSome || (strrchr fname '[').isSome || (strrchr fname '?').isSome

/-- The entries of `gl_pathv` the `for` loop of `globbing` hands to
`duplicate`: those that differ from the pattern. -/
def duplicate_args (pattern : String) (gl_pathv : List String) : List String :=
  gl_pathv.filter fun g => g != pattern

/-- The `while (paths[i])` loop of `globbing`. -/
def globbing_loop (h : Host) (cfg : Config) (fname : String) (fplist : Bool) :
    List String → Result
  | [] => Result.skip
  | p :: rest =>
    if skip_local cfg p then globbing_loop h cfg fname fplist rest
    else
      let pattern := p ++ "/" ++ fname
      match glob h pattern with
      | none => ⟨[], some (Fatal.glob_failed pattern)⟩
      | some gl_pathv =>
        (for_each (fun g => duplicate h cfg g fplist) (duplicate_args pattern gl_pathv)).andThen
          (globbing_loop h cfg fname fplist rest)

/-- The function `globbing`; the token is `none` for a null pointer. -/
def globbing (h : Host) (cfg : Config) (fname : Option String) (fplist : Bool) : Result :=
  match fname with
  | none => ⟨[], some Fatal.assert_fname⟩
  | some f =>
    if has_glob_char f then globbing_loop h cfg f fplist paths
    else duplicate h cfg f fplist

/-- The calls `strtok(NULL, ",")` of the `while` loop of `fs_private_bin_list`
from a saved position on, until one returns the null pointer. -/
def strtok_loop : Nat → List Char → List String
  | 0, _ => []
  | fuel + 1, save =>
    match strtok save with
    | none => []
    | some (tok, save2) => String.mk tok :: strtok_loop fuel save2

/-- The tokens `fs_private_bin_list` hands to `globbing`, in order: the result
of `strtok(dlist, ",")`, null or not, then every non-null result of
`strtok(NULL, ",")`. -/
def tokens (dlist : String) : List (Option String) :=
  match strtok dlist.data with
  | none => [none]
  | some (tok, save) => some (String.mk tok) :: (strtok_loop (save.length + 1) save).map some

/-- The mount-bind loop at the end of `fs_private_bin_list`: a directory on
which `stat` fails is passed over; on any other the mount is called, and a
failed mount ends the process before the audit entries. -/
def mount_bind (h : Host) (cfg : Config) : List String → Result
  | [] => Result.skip
  | p :: rest =>
    match h.stat p with
    | none => mount_bind h cfg rest
    | some _ =>
      if h.mount cfg.RUN_BIN_DIR p then
        (Result.mk [Event.mount cfg.RUN_BIN_DIR p, Event.fs_logger2 "tmpfs" p,
          Event.fs_logger2 "mount" p] none).andThen (mount_bind h cfg rest)
      else ⟨[Event.mount cfg.RUN_BIN_DIR p], some (Fatal.mount_bind p)⟩

/-- The opening of the manifest in `fs_private_bin_list`: nothing without
`arg_private_lib`, else the call of `fopen`, which ends the process when it fails. -/
def open_manifest (h : Host) (cfg : Config) : Result :=
  if cfg.arg_private_lib then
    if h.fopen cfg.RUN_LIB_BIN then ⟨[Event.fopen cfg.RUN_LIB_BIN], none⟩
    else ⟨[Event.fopen cfg.RUN_LIB_BIN], some Fatal.fopen⟩
  else Result.skip

/-- The function `fs_private_bin_list`. -/
def fs_private_bin_list (h : Host) (cfg : Config) : Result :=
  let fplist := cfg.arg_private_lib
  (Result.mk [Event.mkdir_attr cfg.RUN_BIN_DIR] none).andThen
    ((open_manifest h cfg).andThen
      ((for_each (fun t => globbing h cfg t fplist) (tokens cfg.bin_private_keep)).andThen
        ((Result.mk ([Event.fs_logger_print] ++ (if fplist then [Event.fclose] else []))
            none).andThen
          (mount_bind h cfg paths))))

/-- The lines of the manifest a trace writes. -/
def manifest (tr : List Event) : List String :=
  tr.filterMap fun e => match e with
    | Event.fprintf text => some text
    | _ => none

/-- The enabled trusted directories, in the order of `paths[]`. -/
def enabled_paths (cfg : Config) : List String :=
  paths.filter fun p => !skip_local cfg p

/-- The launcher check of `check_dir_or_file` on the candidate `dir/name`:
the directory is `/usr/local/bin`, the candidate is a symbolic link, its
canonical path is available, and the first `/firejail` in it is its end. -/
def launcher_symlink (h : Host) (dir name : String) : Bool :=
  decide (dir = "/usr/local/bin") && h.is_link (dir ++ "/" ++ name) &&
    (match h.realpath (dir ++ "/" ++ name) with
      | none => false
      | some actual_path =>
        match strstr actual_path "/firejail" with
        | none => false
        | some ptr => decide (ptr.length = "/firejail".length))

/-- The candidate `dir/name` ends the scan of `check_dir_or_file`: `stat`
succeeds on it, it is not a directory and the launcher check lets it pass. -/
def accepted (h : Host) (dir name : String) : Bool :=
  match h.stat (dir ++ "/" ++ name) with
  | none => false
  | some t => !S_ISDIR t && !launcher_symlink h dir name


/-! ## The allowlist as the specification describes it -/

/-- A character list split at every comma: the pieces between the commas, the
empty ones included. -/
def split_commas : List Char → List (List Char)
  | [] => [[]]
  | c :: cs =>
    if c = ',' then [] :: split_commas cs
    else
      match split_commas cs with
      | [] => [[c]]
      | t :: ts => (c :: t) :: ts

/-- The allowlist string split at every comma, in order, without trimming and
with the empty tokens kept. -/
def comma_split (s : String) : List String :=
  (split_commas s.data).map String.mk

/-! ## Sample hosts and configurations -/

/-- A host on which nothing exists. -/
def host_empty : Host where
  stat := fun _ => none
  is_link := fun _ => false
  realpath := fun _ => none
  glob_match := fun _ => some []
  invalid_filename := fun _ => false
  fopen := fun _ => true
  mount := fun _ _ => true

/-- A configuration with every option off and the allowlist `ls`. -/
def cfg_default : Config where
  private_bin_no_local := false
  follow_symlink_private_bin := false
  arg_private_lib := false
  bin_private_keep := "ls"
  RUN_BIN_DIR := "/run/firejail/mnt/bin"
  RUN_LIB_BIN := "/run/firejail/mnt/lib/bin"
  PATH_FCOPY := "/usr/lib/firejail/fcopy"

/-- A host on which `/usr/bin/foo` is a symbolic link that leads to
`/home/user/foo`, outside every trusted directory. -/
def host_redirect : Host :=
  { host_empty with
    stat := fun p => if p = "/usr/bin/foo" ∨ p = "/home/user/foo" then some FileType.reg else none
    is_link := fun p => decide (p = "/usr/bin/foo")
    realpath := fun p =>
      if p = "/usr/bin/foo" ∨ p = "/home/user/foo" then some "/home/user/foo" else none }

/-- A host on which `/usr/local/bin/fj` is a symbolic link to the launcher
`/usr/bin/firejail` and `/usr/bin/fj` is a regular file. -/
def host_alias : Host :=
  { host_empty with
    stat := fun p =>
      if p = "/usr/local/bin/fj" ∨ p = "/usr/bin/fj" ∨ p = "/usr/bin/firejail"
      then some FileType.reg else none
    is_link := fun p => decide (p = "/usr/local/bin/fj")
    realpath := fun p =>
      if p = "/usr/local/bin/fj" ∨ p = "/usr/bin/firejail" then some "/usr/bin/firejail"
      else if p = "/usr/bin/fj" then some "/usr/bin/fj" else none }

/-- A host on which `/usr/local/bin/fj`, a symbolic link to the launcher
`/usr/bin/firejail`, is the only `fj`. -/
def host_alias_only : Host :=
  { host_empty with
    stat := fun p =>
      if p = "/usr/local/bin/fj" ∨ p = "/usr/bin/firejail" then some FileType.reg else none
    is_link := fun p => decide (p = "/usr/local/bin/fj")
    realpath := fun p =>
      if p = "/usr/local/bin/fj" ∨ p = "/usr/bin/firejail" then some "/usr/bin/firejail"
      else none }

/-- A host on which `/usr/local/bin/vi` is a symbolic link to the regular file
`/opt/vim/vi` and `/usr/bin/vi` is a regular file itself. -/
def host_link : Host :=
  { host_empty with
    stat := fun p =>
      if p = "/usr/local/bin/vi" ∨ p = "/usr/bin/vi" ∨ p = "/opt/vim/vi"
      then some FileType.reg else none
    is_link := fun p => decide (p = "/usr/local/bin/vi")
    realpath := fun p =>
      if p = "/usr/local/bin/vi" ∨ p = "/opt/vim/vi" then some "/opt/vim/vi"
      else if p = "/usr/bin/vi" then some "/usr/bin/vi" else none }

/-- A host on which `ls` is a regular file in `/bin` and in `/usr/bin`. -/
def host_ls : Host :=
  { host_empty with
    stat := fun p => if p = "/bin/ls" ∨ p = "/usr/bin/ls" then some FileType.reg else none
    realpath := fun p => if p = "/bin/ls" ∨ p = "/usr/bin/ls" then some p else none }

/-- A host on which `/usr/local/bin/fj` is a symbolic link to a launcher
installed as `/opt/firejail/firejail`. -/
def host_opt : Host :=
  { host_empty with
    stat := fun p =>
      if p = "/usr/local/bin/fj" ∨ p = "/opt/firejail/firejail" then some FileType.reg else none
    is_link := fun p => decide (p = "/usr/local/bin/fj")
    realpath := fun p =>
      if p = "/usr/local/bin/fj" ∨ p = "/opt/firejail/firejail"
      then some "/opt/firejail/firejail" else none }

/-- The configuration `cfg_default` with the local directories disabled. -/
def cfg_no_local : Config := { cfg_default with private_bin_no_local := true }

/-- A host on which the directory `/usr/local/bin` exists and holds the
regular file `ls`, the only `ls` there is. -/
def host_local_ls : Host :=
  { host_empty with
    stat := fun p =>
      if p = "/usr/local/bin" then some FileType.dir
      else if p = "/usr/local/bin/ls" then some FileType.reg else none
    realpath := fun p =>
      if p = "/usr/local/bin" ∨ p = "/usr/local/bin/ls" then some p else none
    glob_match := fun p => if p = "/usr/local/bin/l*" then some ["/usr/local/bin/ls"] else some [] }

/-! ## Reading a trace -/

/-- The copy requests of a trace: the arguments of each `sbox_run`. -/
def copies (tr : List Event) : List (List String) :=
  tr.filterMap fun e => match e with
    | Event.sbox_run args => some args
    | _ => none

/-- The event is a bind mount. -/
def is_mount : Event → Bool
  | Event.mount _ _ => true
  | _ => false

/-- The event is a copy request or a manifest write. -/
def is_staging : Event → Bool
  | Event.sbox_run _ => true
  | Event.fprintf _ => true
  | _ => false

/-- The event belongs to the mount sweep: a bind mount, or an audit entry
`tmpfs` or `mount`. -/
def is_sweep : Event → Bool
  | Event.mount _ _ => true
  | Event.fs_logger2 msg1 _ => msg1 == "tmpfs" || msg1 == "mount"
  | _ => false

/-- What the mount sweep leaves in the trace for one directory when no mount
fails: nothing when `stat` fails on it, else the bind mount of the staging
directory and the two audit entries. -/
def sweep_step (h : Host) (cfg : Config) (dir : String) : List Event :=
  if (h.stat dir).isSome then
    [Event.mount cfg.RUN_BIN_DIR dir, Event.fs_logger2 "tmpfs" dir, Event.fs_logger2 "mount" dir]
  else []

/-! ## More sample hosts and configurations -/

/-- A host on which `/usr/bin/pipe` is a named pipe. -/
def host_fifo : Host :=
  { host_empty with
    stat := fun p => if p = "/usr/bin/pipe" then some FileType.fifo else none
    realpath := fun p => if p = "/usr/bin/pipe" then some p else none }

/-- The configuration `cfg_default` with an empty allowlist. -/
def cfg_no_token : Config := { cfg_default with bin_private_keep := "" }

/-- The configuration `cfg_default` with an allowlist made of commas. -/
def cfg_commas : Config := { cfg_default with bin_private_keep := ",," }

/-- A host on which `/usr/bin/X11` is a directory. -/
def host_dir : Host :=
  { host_empty with
    stat := fun p => if p = "/usr/bin/X11" then some FileType.dir else none
    realpath := fun p => if p = "/usr/bin/X11" then some p else none }

/-- A host on which `/usr/bin/fj` is a symbolic link to the launcher
`/usr/bin/firejail`. -/
def host_alias_usr_bin : Host :=
  { host_empty with
    stat := fun p =>
      if p = "/usr/bin/fj" ∨ p = "/usr/bin/firejail" then some FileType.reg else none
    is_link := fun p => decide (p = "/usr/bin/fj")
    realpath := fun p =>
      if p = "/usr/bin/fj" ∨ p = "/usr/bin/firejail" then some "/usr/bin/firejail" else none }

/-- A host on which `/usr/bin` is an empty directory and no file exists: with
`GLOB_PERIOD` the pattern `/usr/bin/*` matches the entries `.` and `..`. -/
def host_dots : Host :=
  { host_empty with
    stat := fun p =>
      if p = "/usr" ∨ p = "/usr/bin" ∨ p = "/usr/bin/." ∨ p = "/usr/bin/.."
      then some FileType.dir else none
    realpath := fun p =>
      if p = "/usr/bin" ∨ p = "/usr/bin/." then some "/usr/bin"
      else if p = "/usr" ∨ p = "/usr/bin/.." then some "/usr" else none
    glob_match := fun p =>
      if p = "/usr/bin/*" then some ["/usr/bin/.", "/usr/bin/.."] else some [] }

/-- A host with the directories `/usr/bin` and `/bin`, each holding the regular
file `ls`, on which `/sbin` is a regular file, so that the mount over it fails. -/
def host_ls_sbin : Host :=
  { host_empty with
    stat := fun p =>
      if p = "/usr/bin" ∨ p = "/bin" then some FileType.dir
      else if p = "/bin/ls" ∨ p = "/usr/bin/ls" ∨ p = "/sbin" then some FileType.reg
      else none
    realpath := fun p =>
      if p = "/bin/ls" ∨ p = "/usr/bin/ls" ∨ p = "/usr/bin" ∨ p = "/bin" ∨ p = "/sbin"
      then some p else none
    mount := fun _ target => decide (target ≠ "/sbin") }

/-- A host with the directories `/usr/bin` and `/sbin`, on which the mount over
`/usr/bin` fails. -/
def host_busy : Host :=
  { host_empty with
    stat := fun p => if p = "/usr/bin" ∨ p = "/sbin" then some FileType.dir else none
    realpath := fun p => if p = "/usr/bin" ∨ p = "/sbin" then some p else none
    mount := fun _ target => decide (target ≠ "/usr/bin") }

/-! ## Facts about the string functions -/

theorem strstrList_some_iff (hay needle : List Char) :
    (strstrList hay needle).isSome = true ↔ ∃ a b, hay = a ++ needle ++ b := by
  induction hay with
  | nil =>
    by_cases hn : needle = []
    · simp [strstrList, hn]
    · simp [strstrList, hn]
  | cons x xs ih =>
    unfold strstrList
    by_cases hp : needle.isPrefixOf (x :: xs) = true
    · rw [if_pos hp]
      simp only [Option.isSome_some, true_iff]
      obtain ⟨t, ht⟩ := List.isPrefixOf_iff_prefix.mp hp
      exact ⟨[], t, by simp [ht]⟩
    · rw [if_neg hp, ih]
      constructor
      · rintro ⟨a, b, hab⟩
        exact ⟨x :: a, b, by simp [hab]⟩
      · rintro ⟨a, b, hab⟩
        cases a with
        | nil =>
          exfalso
          apply hp
          apply List.isPrefixOf_iff_prefix.mpr
          exact ⟨b, by simpa using hab.symm⟩
        | cons y ys =>
          simp only [List.cons_append, List.cons.injEq] at hab
          exact ⟨ys, b, by simpa using hab.2⟩

theorem strrchrList_none (c : Char) (s : List Char) (hc : c ∉ s) :
    strrchrList c s = none := by
  induction s with
  | nil => rfl
  | cons x xs ih =>
    simp only [List.mem_cons, not_or] at hc
    simp [strrchrList, ih hc.2, Ne.symm hc.1]

theorem strrchrList_mem (c : Char) (s : List Char) (hs : strrchrList c s = none) :
    c ∉ s := by
  induction s with
  | nil => simp
  | cons x xs ih =>
    unfold strrchrList at hs
    cases hxs : strrchrList c xs with
    | some r2 => rw [hxs] at hs; simp at hs
    | none =>
      rw [hxs] at hs
      by_cases hx : x = c
      · simp [hx] at hs
      · simp only [List.mem_cons, not_or]
        exact ⟨Ne.symm hx, ih hxs⟩

theorem strrchrList_append (c : Char) (pre b : List Char) (hc : c ∉ b) :
    strrchrList c (pre ++ c :: b) = some (c :: b) := by
  induction pre with
  | nil => simp [strrchrList, strrchrList_none c b hc]
  | cons x xs ih => simp [strrchrList, ih]

theorem strrchrList_some (c : Char) (s r : List Char) (hs : strrchrList c s = some r) :
    ∃ pre b, s = pre ++ c :: b ∧ c ∉ b ∧ r = c :: b := by
  induction s with
  | nil => simp [strrchrList] at hs
  | cons x xs ih =>
    unfold strrchrList at hs
    cases hxs : strrchrList c xs with
    | some r2 =>
      rw [hxs] at hs
      simp only [Option.some.injEq] at hs
      obtain ⟨pre, b, h1, h2, h3⟩ := ih (hs ▸ hxs)
      exact ⟨x :: pre, b, by simp [h1], h2, h3⟩
    | none =>
      rw [hxs] at hs
      by_cases hx : x = c
      · simp only [hx, if_true, Option.some.injEq] at hs
        refine ⟨[], xs, by simp [hx], ?_, hs.symm⟩
        exact strrchrList_mem c xs hxs
      · simp [hx] at hs

theorem data_path (d b : String) : (d ++ "/" ++ b).data = d.data ++ '/' :: b.data := by
  simp [String.data_append]

theorem mem_enabled_paths (cfg : Config) (d : String) :
    d ∈ enabled_paths cfg ↔ d ∈ paths ∧ skip_local cfg d = false := by
  simp [enabled_paths, List.mem_filter]

theorem valid_full_path_file_loop_iff (cfg : Config) (full_name fname : String)
    (ps : List String) :
    valid_full_path_file_loop cfg full_name fname ps = true ↔
      ∃ d ∈ ps, skip_local cfg d = false ∧ full_name = d ++ "/" ++ fname := by
  induction ps with
  | nil => simp [valid_full_path_file_loop]
  | cons p rest ih =>
    unfold valid_full_path_file_loop
    by_cases hs : skip_local cfg p = true
    · simp [hs, ih]
    · by_cases he : full_name = p ++ "/" ++ fname
      · simp [hs, he]
      · simp [hs, he, ih]

/-- What `valid_full_path_file` computes, read off the canonical path. -/
theorem valid_full_path_file_iff (h : Host) (cfg : Config) (p : String) :
    valid_full_path_file h cfg p = true ↔
      ∃ c, h.realpath p = some c ∧ ∃ d ∈ enabled_paths cfg, ∃ b : String,
        b ≠ "" ∧ '/' ∉ b.data ∧ c = d ++ "/" ++ b := by
  unfold valid_full_path_file
  cases hr : h.realpath p with
  | none => simp
  | some c =>
    simp only [Option.some.injEq, exists_eq_left']
    cases hp : strrchr c '/' with
    | none =>
      simp only [Bool.false_eq_true, false_iff]
      rintro ⟨d, -, b, -, hb, hc⟩
      have h1 : strrchrList '/' c.data = some ('/' :: b.data) := by
        rw [hc, data_path]
        exact strrchrList_append '/' d.data b.data hb
      simp [strrchr, h1] at hp
    | some ptr =>
      simp only [strrchr, Option.map_eq_some'] at hp
      obtain ⟨r, hr1, hr2⟩ := hp
      obtain ⟨pre, b, h1, h2, h3⟩ := strrchrList_some '/' c.data r hr1
      have hptr : (⟨ptr.data.tail⟩ : String) = ⟨b⟩ := by
        rw [← hr2, h3]
        rfl
      simp only [hptr]
      by_cases hb : (⟨b⟩ : String) = ""
      · simp only [hb, if_true, Bool.false_eq_true, false_iff]
        rintro ⟨d, -, b2, hb2, hb3, hc⟩
        have h4 : strrchrList '/' c.data = some ('/' :: b2.data) := by
          rw [hc, data_path]
          exact strrchrList_append '/' d.data b2.data hb3
        rw [hr1, h3] at h4
        simp only [Option.some.injEq, List.cons.injEq, true_and] at h4
        apply hb2
        apply String.ext
        rw [← h4]
        simpa using congrArg String.data hb
      · rw [if_neg hb, valid_full_path_file_loop_iff]
        constructor
        · rintro ⟨d, hd, hs, hc⟩
          exact ⟨d, (mem_enabled_paths cfg d).mpr ⟨hd, hs⟩, ⟨b⟩, hb, h2, hc⟩
        · rintro ⟨d, hd, b2, hb2, hb3, hc⟩
          have h4 : strrchrList '/' c.data = some ('/' :: b2.data) := by
            rw [hc, data_path]
            exact strrchrList_append '/' d.data b2.data hb3
          rw [hr1, h3] at h4
          simp only [Option.some.injEq, List.cons.injEq, true_and] at h4
          have hbb : (⟨b⟩ : String) = b2 := String.ext h4
          obtain ⟨hd1, hd2⟩ := (mem_enabled_paths cfg d).mp hd
          exact ⟨d, hd1, hd2, by rw [hbb]; exact hc⟩

theorem check_dir_or_file_loop_cons (h : Host) (cfg : Config) (name p : String)
    (rest : List String) :
    check_dir_or_file_loop h cfg name (p :: rest)
      = if skip_local cfg p then check_dir_or_file_loop h cfg name rest
        else if accepted h p name then some p
        else check_dir_or_file_loop h cfg name rest := by
  rw [check_dir_or_file_loop]
  unfold accepted launcher_symlink
  simp only []
  generalize h.stat (p ++ "/" ++ name) = st
  generalize h.is_link (p ++ "/" ++ name) = il
  generalize h.realpath (p ++ "/" ++ name) = rp
  generalize check_dir_or_file_loop h cfg name rest = r
  generalize skip_local cfg p = sk
  cases sk
  · cases st with
    | none => simp
    | some t =>
      cases hd : S_ISDIR t
      · by_cases hp : p = "/usr/local/bin"
        · cases il
          · simp [hd, hp]
          · cases rp with
            | none => simp [hd, hp]
            | some a =>
              cases hss : strstr a "/firejail" with
              | none => simp [hd, hp, hss]
              | some ptr =>
                by_cases hlen : ptr.length = "/firejail".length
                · simp [hd, hp, hss, hlen]
                · simp [hd, hp, hss, hlen]
        · simp [hd, hp]
      · simp [hd]
  · simp

theorem check_dir_or_file_loop_eq_find (h : Host) (cfg : Config) (name : String)
    (ps : List String) :
    check_dir_or_file_loop h cfg name ps
      = (ps.filter fun p => !skip_local cfg p).find? fun d => accepted h d name := by
  induction ps with
  | nil => rfl
  | cons p rest ih =>
    rw [check_dir_or_file_loop_cons]
    by_cases hs : skip_local cfg p = true
    · simp [hs, ih]
    · rw [if_neg hs, List.filter_cons_of_pos (by simpa using hs), List.find?_cons, ih]
      cases accepted h p name <;> simp

theorem check_dir_or_file_eq_find (h : Host) (cfg : Config) (name : String) :
    check_dir_or_file h cfg name
      = (enabled_paths cfg).find? fun d => accepted h d name :=
  check_dir_or_file_loop_eq_find h cfg name paths

theorem head_iff (f : String) (c : Char) :
    f.data.head? = some c ↔ ∃ r : String, f = String.singleton c ++ r := by
  constructor
  · intro hf
    cases hd : f.data with
    | nil => simp [hd] at hf
    | cons x xs =>
      simp only [hd, List.head?_cons, Option.some.injEq] at hf
      refine ⟨⟨xs⟩, String.ext ?_⟩
      simp [hd, hf, String.data_append, String.singleton]
  · rintro ⟨r, rfl⟩
    simp [String.data_append, String.singleton]

theorem strstr_isSome_iff (hay needle : String) :
    (strstr hay needle).isSome = true ↔ ∃ a b : String, hay = a ++ needle ++ b := by
  simp only [strstr, Option.isSome_map', strstrList_some_iff]
  constructor
  · rintro ⟨a, b, hab⟩
    exact ⟨⟨a⟩, ⟨b⟩, String.ext (by simp [String.data_append, hab])⟩
  · rintro ⟨a, b, rfl⟩
    exact ⟨a.data, b.data, by simp [String.data_append]⟩

theorem tilde_or_dotdot_iff (f : String) :
    tilde_or_dotdot f = true ↔
      ((∃ r : String, f = "~" ++ r) ∨ ∃ a b : String, f = a ++ ".." ++ b) := by
  unfold tilde_or_dotdot
  rw [Bool.or_eq_true, strstr_isSome_iff, beq_iff_eq, head_iff]
  rfl

theorem manifest_copy_file (h : Host) (cfg : Config) (full_path : String) :
    manifest (copy_file h cfg full_path) = [] := by
  unfold copy_file
  split
  · rfl
  · split
    · split
      · rfl
      · split <;> rfl
    · rfl

theorem manifest_append (a b : List Event) : manifest (a ++ b) = manifest a ++ manifest b := by
  simp [manifest, List.filterMap_append]


theorem enabled_paths_no_local (cfg : Config) (hno : cfg.private_bin_no_local = true) :
    enabled_paths cfg = ["/usr/bin", "/bin", "/usr/games", "/usr/sbin", "/sbin"] := by
  simp only [enabled_paths, skip_local, hno]
  decide

theorem skip_local_off (cfg : Config) (hno : cfg.private_bin_no_local = false) (d : String) :
    skip_local cfg d = false := by
  simp [skip_local, hno]

theorem enabled_paths_all (cfg : Config) (hno : cfg.private_bin_no_local = false) :
    enabled_paths cfg = paths := by
  simp [enabled_paths, skip_local_off cfg hno]

theorem duplicate_glob_match (h : Host) (g : String → Option (List String)) (cfg : Config)
    (f : String) (fplist : Bool) :
    duplicate { h with glob_match := g } cfg f fplist = duplicate h cfg f fplist := by
  have hc : ∀ name ps, check_dir_or_file_loop { h with glob_match := g } cfg name ps
      = check_dir_or_file_loop h cfg name ps := by
    intro name ps
    induction ps with
    | nil => rfl
    | cons p rest ih => simp only [check_dir_or_file_loop, ih]
  have hv : ∀ name, valid_full_path_file { h with glob_match := g } cfg name
      = valid_full_path_file h cfg name := fun _ => rfl
  have hr : resolve { h with glob_match := g } cfg f = resolve h cfg f := by
    simp only [resolve, hv, check_dir_or_file, hc]
  have hcp : ∀ full, copy_file { h with glob_match := g } cfg full = copy_file h cfg full := by
    intro full
    simp only [copy_file, hv]
  simp only [duplicate, hr, hcp]

theorem globbing_loop_glob_match (h : Host) (g : String → Option (List String)) (cfg : Config)
    (fname : String) (fplist : Bool) (ps : List String)
    (hg : ∀ d ∈ ps, skip_local cfg d = false →
      g (d ++ "/" ++ fname) = h.glob_match (d ++ "/" ++ fname)) :
    globbing_loop { h with glob_match := g } cfg fname fplist ps
      = globbing_loop h cfg fname fplist ps := by
  induction ps with
  | nil => rfl
  | cons p rest ih =>
    have ih2 := ih fun d hd => hg d (List.mem_cons_of_mem p hd)
    unfold globbing_loop
    by_cases hs : skip_local cfg p = true
    · simp only [hs, if_true, ih2]
    · have hgp := hg p (List.mem_cons_self p rest) (by simpa using hs)
      simp only [hs, Bool.false_eq_true, if_false, glob, hgp, duplicate_glob_match, ih2]

theorem path_inj (d1 d2 x : String) (hx : d1 ++ "/" ++ x = d2 ++ "/" ++ x) : d1 = d2 := by
  have hdata := congrArg String.data hx
  rw [data_path, data_path] at hdata
  exact String.ext (List.append_cancel_right hdata)

theorem andThen_returned (a b : Result) (hab : (a.andThen b).exit = none) :
    a.exit = none ∧ b.exit = none ∧ (a.andThen b).trace = a.trace ++ b.trace := by
  unfold Result.andThen at hab ⊢
  cases ha : a.exit with
  | some e => simp [ha] at hab
  | none =>
    simp only [ha] at hab
    exact ⟨rfl, hab, rfl⟩

theorem skip_andThen (k : Result) : Result.skip.andThen k = k := rfl

theorem has_glob_char_iff (f : String) :
    has_glob_char f = true ↔ ('*' ∈ f.data ∨ '[' ∈ f.data ∨ '?' ∈ f.data) := by
  have key : ∀ c : Char, (strrchr f c).isSome = true ↔ c ∈ f.data := by
    intro c
    simp only [strrchr, Option.isSome_map']
    constructor
    · intro hs
      by_contra hc
      rw [strrchrList_none c f.data hc] at hs
      simp at hs
    · intro hc
      cases hr : strrchrList c f.data with
      | some r => rfl
      | none => exact absurd hc (strrchrList_mem c f.data hr)
  simp only [has_glob_char, Bool.or_eq_true, key, or_assoc]

theorem glob_no_match (h : Host) (pattern : String) (hm : h.glob_match pattern = some []) :
    glob h pattern = some [pattern] := by
  simp [glob, hm]

theorem duplicate_args_self (pattern : String) : duplicate_args pattern [pattern] = [] := by
  simp [duplicate_args]

theorem globbing_loop_no_match (h : Host) (cfg : Config) (fname : String) (fplist : Bool)
    (ps : List String)
    (hno : ∀ d ∈ ps, skip_local cfg d = false → h.glob_match (d ++ "/" ++ fname) = some []) :
    globbing_loop h cfg fname fplist ps = Result.skip := by
  induction ps with
  | nil => rfl
  | cons p rest ih =>
    have ih2 := ih fun d hd => hno d (List.mem_cons_of_mem p hd)
    unfold globbing_loop
    by_cases hs : skip_local cfg p = true
    · simp only [hs, if_true, ih2]
    · have hgp := hno p (List.mem_cons_self p rest) (by simpa using hs)
      simp only [hs, Bool.false_eq_true, if_false, glob_no_match h _ hgp, duplicate_args_self,
        for_each, ih2, skip_andThen]

theorem split_commas_unfold (l : List Char) :
    split_commas l
      = l.takeWhile (fun x => x != ',') ::
        (match l.dropWhile (fun x => x != ',') with
          | [] => []
          | _ :: r => split_commas r) := by
  induction l with
  | nil => rfl
  | cons c cs ih =>
    by_cases hc : c = ','
    · simp [split_commas, hc, List.takeWhile, List.dropWhile]
    · have hb : (c != ',') = true := by simpa using hc
      rw [split_commas, if_neg hc, ih]
      simp [List.takeWhile_cons, List.dropWhile_cons, hb]

theorem nonempty_split_dropWhile (l : List Char) :
    (split_commas l).filter (fun t => t != [])
      = (split_commas (l.dropWhile fun c => c == ',')).filter (fun t => t != []) := by
  induction l with
  | nil => rfl
  | cons c cs ih =>
    by_cases hc : c = ','
    · simp [split_commas, hc, List.dropWhile_cons, ih]
    · have hb : (c == ',') = false := by simpa using hc
      simp [List.dropWhile_cons, hb]

theorem nonempty_split_cons (c : Char) (cs : List Char) (hc : c ≠ ',') :
    (split_commas (c :: cs)).filter (fun t => t != [])
      = (c :: cs).takeWhile (fun x => x != ',') ::
        (split_commas ((c :: cs).dropWhile fun x => x != ',').tail).filter (fun t => t != []) := by
  rw [split_commas_unfold (c :: cs)]
  have hb : (c != ',') = true := by simpa using hc
  have htw : (c :: cs).takeWhile (fun x => x != ',') = c :: cs.takeWhile (fun x => x != ',') := by
    simp [List.takeWhile_cons, hb]
  rw [htw]
  cases hdw : (c :: cs).dropWhile (fun x => x != ',') with
  | nil => simp [split_commas]
  | cons x r => simp

theorem strtok_loop_eq (fuel : Nat) (save : List Char) (hf : save.length < fuel) :
    strtok_loop fuel save
      = ((split_commas save).filter (fun t => t != [])).map String.mk := by
  induction fuel generalizing save with
  | zero => omega
  | succ n ih =>
    rw [nonempty_split_dropWhile]
    unfold strtok_loop strtok
    have hlen : (save.dropWhile fun c => c == ',').length ≤ save.length :=
      (List.dropWhile_sublist _).length_le
    cases hdw : save.dropWhile (fun c => c == ',') with
    | nil => simp [split_commas]
    | cons c cs =>
      have hc : c ≠ ',' := by
        have := List.head_dropWhile_not (fun c => c == ',') save (by simp [hdw])
        simpa [hdw] using this
      rw [hdw] at hlen
      have hrest : (((c :: cs).dropWhile fun x => x != ',').tail).length < n := by
        have h1 : ((c :: cs).dropWhile fun x => x != ',').length ≤ cs.length := by
          have hb : (c != ',') = true := by simpa using hc
          have : (c :: cs).dropWhile (fun x => x != ',') = cs.dropWhile (fun x => x != ',') := by
            simp [List.dropWhile_cons, hb]
          rw [this]
          exact (List.dropWhile_sublist _).length_le
        have h2 := List.length_tail ((c :: cs).dropWhile fun x => x != ',')
        simp only [List.length_cons] at hlen
        omega
      simp only []
      rw [ih _ hrest, nonempty_split_cons c cs hc]
      simp

theorem tokens_eq (s : String) (hne : ∃ c ∈ s.data, c ≠ ',') :
    tokens s = ((split_commas s.data).filter (fun t => t != [])).map fun t => some (String.mk t) := by
  unfold tokens strtok
  rw [nonempty_split_dropWhile]
  cases hdw : s.data.dropWhile (fun c => c == ',') with
  | nil =>
    exfalso
    rw [List.dropWhile_eq_nil_iff] at hdw
    obtain ⟨c, hc, hcc⟩ := hne
    exact hcc (by simpa using hdw c hc)
  | cons c cs =>
    have hc : c ≠ ',' := by
      have := List.head_dropWhile_not (fun c => c == ',') s.data (by simp [hdw])
      simpa [hdw] using this
    simp only []
    rw [strtok_loop_eq _ _ (Nat.lt_succ_self _), nonempty_split_cons c cs hc]
    simp

theorem map_mk_filter (l : List (List Char)) :
    (l.map String.mk).filter (fun t => t ≠ "")
      = (l.filter (fun t => t != [])).map String.mk := by
  induction l with
  | nil => rfl
  | cons t ts ih =>
    by_cases ht : t = []
    · subst ht
      have h0 : String.mk [] = "" := rfl
      simpa [h0] using ih
    · have hs : String.mk t ≠ "" := fun hh => ht (congrArg String.data hh)
      simpa [hs, ht] using ih

theorem comma_split_filter (s : String) :
    (comma_split s).filter (fun t => t ≠ "")
      = ((split_commas s.data).filter (fun t => t != [])).map String.mk :=
  map_mk_filter (split_commas s.data)


/-! ## Facts about traces -/

theorem duplicate_of_resolve (h : Host) (cfg : Config) (f full : String) (fplist : Bool)
    (ht : tilde_or_dotdot f = false) (hv : h.invalid_filename f = false)
    (hr : resolve h cfg f = some full) :
    duplicate h cfg f fplist
      = ⟨(if fplist then [Event.fprintf (full ++ "\n")] else [])
          ++ copy_file h cfg full ++ [Event.fs_logger2 "clone" f], none⟩ := by
  unfold duplicate
  rw [ht, hv, hr]
  rfl

theorem duplicate_of_unresolved (h : Host) (cfg : Config) (f : String) (fplist : Bool)
    (ht : tilde_or_dotdot f = false) (hv : h.invalid_filename f = false)
    (hr : resolve h cfg f = none) :
    duplicate h cfg f fplist = Result.skip := by
  unfold duplicate
  rw [ht, hv, hr]
  rfl

theorem andThen_trace (a b : Result) :
    (a.andThen b).trace = a.trace ++ (if a.exit = none then b.trace else []) := by
  unfold Result.andThen
  cases ha : a.exit <;> simp

theorem andThen_exit (a b : Result) :
    (a.andThen b).exit = if a.exit = none then b.exit else a.exit := by
  unfold Result.andThen
  cases ha : a.exit <;> simp

theorem filter_copy_file (h : Host) (cfg : Config) (full : String) (p : Event → Bool)
    (hp : ∀ args, p (Event.sbox_run args) = false) :
    (copy_file h cfg full).filter p = [] := by
  rw [List.filter_eq_nil_iff]
  intro e he
  unfold copy_file at he
  have : ∃ args, e = Event.sbox_run args := by
    split at he
    · exact ⟨_, by simpa using he⟩
    · rw [List.mem_append] at he
      rcases he with he | he
      · split at he
        · split at he
          · simp at he
          · split at he
            · exact ⟨_, by simpa using he⟩
            · simp at he
        · simp at he
      · exact ⟨_, by simpa using he⟩
  obtain ⟨args, rfl⟩ := this
  simp [hp]

theorem filter_duplicate (h : Host) (cfg : Config) (f : String) (fplist : Bool)
    (p : Event → Bool) (h1 : ∀ args, p (Event.sbox_run args) = false)
    (h2 : ∀ text, p (Event.fprintf text) = false)
    (h3 : ∀ arg, p (Event.fs_logger2 "clone" arg) = false) :
    (duplicate h cfg f fplist).trace.filter p = [] := by
  unfold duplicate
  split
  · rfl
  · split
    · rfl
    · split
      · rfl
      · cases fplist <;> simp [List.filter_append, filter_copy_file h cfg _ p h1, h2, h3]

theorem filter_andThen (a b : Result) (p : Event → Bool)
    (ha : a.trace.filter p = []) (hb : b.trace.filter p = []) :
    (a.andThen b).trace.filter p = [] := by
  rw [andThen_trace, List.filter_append, ha]
  split <;> simp [hb]

theorem filter_for_each {α : Type} (f : α → Result) (p : Event → Bool) (l : List α)
    (hf : ∀ x, (f x).trace.filter p = []) :
    (for_each f l).trace.filter p = [] := by
  induction l with
  | nil => rfl
  | cons x xs ih => exact filter_andThen _ _ p (hf x) ih

theorem filter_globbing (h : Host) (cfg : Config) (t : Option String) (fplist : Bool)
    (p : Event → Bool) (h1 : ∀ args, p (Event.sbox_run args) = false)
    (h2 : ∀ text, p (Event.fprintf text) = false)
    (h3 : ∀ arg, p (Event.fs_logger2 "clone" arg) = false) :
    (globbing h cfg t fplist).trace.filter p = [] := by
  have hd := fun g => filter_duplicate h cfg g fplist p h1 h2 h3
  have hl : ∀ f ps, (globbing_loop h cfg f fplist ps).trace.filter p = [] := by
    intro f ps
    induction ps with
    | nil => rfl
    | cons q rest ih =>
      unfold globbing_loop
      split
      · exact ih
      · simp only []
        split
        · rfl
        · exact filter_andThen _ _ p (filter_for_each _ p _ hd) ih
  unfold globbing
  cases t with
  | none => rfl
  | some f =>
    simp only []
    split
    · exact hl f paths
    · exact hd f

theorem andThen_assoc (a b c : Result) :
    (a.andThen b).andThen c = a.andThen (b.andThen c) := by
  unfold Result.andThen
  cases a.exit <;> cases b.exit <;> simp

theorem for_each_append {α : Type} (f : α → Result) (l1 l2 : List α) :
    for_each f (l1 ++ l2) = (for_each f l1).andThen (for_each f l2) := by
  induction l1 with
  | nil => rfl
  | cons x xs ih =>
    rw [List.cons_append, for_each, for_each, ih, andThen_assoc]

theorem mount_bind_ok (h : Host) (cfg : Config) (ps : List String)
    (hok : ∀ d ∈ ps, (h.stat d).isSome = true → h.mount cfg.RUN_BIN_DIR d = true) :
    mount_bind h cfg ps = ⟨ps.flatMap (sweep_step h cfg), none⟩ := by
  induction ps with
  | nil => rfl
  | cons p rest ih =>
    have ih2 := ih fun d hd => hok d (List.mem_cons_of_mem p hd)
    rw [mount_bind, List.flatMap_cons, ih2]
    cases hs : h.stat p with
    | none => simp [sweep_step, hs]
    | some t =>
      have hm := hok p (List.mem_cons_self p rest) (by simp [hs])
      simp [sweep_step, hs, hm, Result.andThen]

theorem mount_bind_returned (h : Host) (cfg : Config) (ps : List String)
    (hret : (mount_bind h cfg ps).exit = none) :
    ∀ d ∈ ps, (h.stat d).isSome = true → h.mount cfg.RUN_BIN_DIR d = true := by
  induction ps with
  | nil => simp
  | cons p rest ih =>
    rw [mount_bind] at hret
    cases hs : h.stat p with
    | none =>
      simp only [hs] at hret
      intro d hd hst
      rcases List.mem_cons.mp hd with rfl | hd2
      · simp [hs] at hst
      · exact ih hret d hd2 hst
    | some t =>
      simp only [hs] at hret
      cases hm : h.mount cfg.RUN_BIN_DIR p with
      | false => simp [hm] at hret
      | true =>
        simp only [hm, if_true, andThen_exit] at hret
        intro d hd hst
        rcases List.mem_cons.mp hd with rfl | hd2
        · exact hm
        · exact ih (by simpa using hret) d hd2 hst

theorem mount_bind_failed (h : Host) (cfg : Config) (pre post : List String) (d : String)
    (hok : ∀ x ∈ pre, (h.stat x).isSome = true → h.mount cfg.RUN_BIN_DIR x = true)
    (hst : (h.stat d).isSome = true) (hm : h.mount cfg.RUN_BIN_DIR d = false) :
    mount_bind h cfg (pre ++ d :: post)
      = ⟨pre.flatMap (sweep_step h cfg) ++ [Event.mount cfg.RUN_BIN_DIR d],
          some (Fatal.mount_bind d)⟩ := by
  induction pre with
  | nil =>
    obtain ⟨t, ht⟩ := Option.isSome_iff_exists.mp hst
    simp [mount_bind, ht, hm]
  | cons p rest ih =>
    have ih2 := ih fun x hx => hok x (List.mem_cons_of_mem p hx)
    rw [List.cons_append, mount_bind, ih2, List.flatMap_cons]
    cases hs : h.stat p with
    | none => simp [sweep_step, hs]
    | some t =>
      have hmp := hok p (List.mem_cons_self p rest) (by simp [hs])
      simp [sweep_step, hs, hmp, Result.andThen]

theorem mount_bind_mem (h : Host) (cfg : Config) (ps : List String) (e : Event)
    (he : e ∈ (mount_bind h cfg ps).trace) :
    ∃ d ∈ ps, (h.stat d).isSome = true ∧
      (e = Event.mount cfg.RUN_BIN_DIR d ∨ e = Event.fs_logger2 "tmpfs" d ∨
        e = Event.fs_logger2 "mount" d) := by
  induction ps with
  | nil => simp [mount_bind, Result.skip] at he
  | cons p rest ih =>
    rw [mount_bind] at he
    cases hs : h.stat p with
    | none =>
      simp only [hs] at he
      obtain ⟨d, hd, hr⟩ := ih he
      exact ⟨d, List.mem_cons_of_mem p hd, hr⟩
    | some t =>
      simp only [hs] at he
      cases hm : h.mount cfg.RUN_BIN_DIR p with
      | false =>
        simp only [hm, Bool.false_eq_true, if_false, List.mem_singleton] at he
        exact ⟨p, List.mem_cons_self p rest, by simp [hs], Or.inl he⟩
      | true =>
        simp only [hm, if_true, andThen_trace, List.mem_append] at he
        rcases he with he | he
        · simp only [List.mem_cons, List.mem_singleton, List.not_mem_nil, or_false] at he
          exact ⟨p, List.mem_cons_self p rest, by simp [hs], he⟩
        · obtain ⟨d, hd, hr⟩ := ih he
          exact ⟨d, List.mem_cons_of_mem p hd, hr⟩

theorem filter_sweep_mount_bind (h : Host) (cfg : Config) (ps : List String) :
    (mount_bind h cfg ps).trace.filter is_sweep = (mount_bind h cfg ps).trace := by
  rw [List.filter_eq_self]
  intro e he
  obtain ⟨d, -, -, hr⟩ := mount_bind_mem h cfg ps e he
  rcases hr with rfl | rfl | rfl <;> simp [is_sweep]

theorem filter_staging_mount_bind (h : Host) (cfg : Config) (ps : List String) :
    (mount_bind h cfg ps).trace.filter is_staging = [] := by
  rw [List.filter_eq_nil_iff]
  intro e he
  obtain ⟨d, -, -, hr⟩ := mount_bind_mem h cfg ps e he
  rcases hr with rfl | rfl | rfl <;> simp [is_staging]

theorem mount_bind_no_local (h : Host) (cfg : Config) (b : Bool) (ps : List String) :
    mount_bind h { cfg with private_bin_no_local := b } ps = mount_bind h cfg ps := by
  induction ps with
  | nil => rfl
  | cons p rest ih => simp only [mount_bind, ih]

/-- The run of `fs_private_bin_list` when the manifest cannot be opened. -/
theorem fs_private_bin_list_fopen_failed (h : Host) (cfg : Config)
    (hlib : cfg.arg_private_lib = true) (hf : h.fopen cfg.RUN_LIB_BIN = false) :
    fs_private_bin_list h cfg
      = ⟨[Event.mkdir_attr cfg.RUN_BIN_DIR, Event.fopen cfg.RUN_LIB_BIN], some Fatal.fopen⟩ := by
  simp [fs_private_bin_list, open_manifest, hlib, hf, Result.andThen]

/-- The trace and the exit of `fs_private_bin_list`, when the manifest is not
used or can be opened, in terms of the token loop and the mount sweep. -/
theorem fs_private_bin_list_eq (h : Host) (cfg : Config)
    (hf : cfg.arg_private_lib = true → h.fopen cfg.RUN_LIB_BIN = true) :
    (fs_private_bin_list h cfg).exit
        = (if (for_each (fun t => globbing h cfg t cfg.arg_private_lib)
              (tokens cfg.bin_private_keep)).exit = none
            then (mount_bind h cfg paths).exit
            else (for_each (fun t => globbing h cfg t cfg.arg_private_lib)
              (tokens cfg.bin_private_keep)).exit) ∧
      (fs_private_bin_list h cfg).trace
        = ([Event.mkdir_attr cfg.RUN_BIN_DIR]
            ++ (if cfg.arg_private_lib then [Event.fopen cfg.RUN_LIB_BIN] else []))
          ++ (for_each (fun t => globbing h cfg t cfg.arg_private_lib)
            (tokens cfg.bin_private_keep)).trace
          ++ (if (for_each (fun t => globbing h cfg t cfg.arg_private_lib)
                (tokens cfg.bin_private_keep)).exit = none
              then [Event.fs_logger_print]
                ++ (if cfg.arg_private_lib then [Event.fclose] else [])
                ++ (mount_bind h cfg paths).trace
              else []) := by
  have ho : open_manifest h cfg
      = ⟨if cfg.arg_private_lib then [Event.fopen cfg.RUN_LIB_BIN] else [], none⟩ := by
    unfold open_manifest
    cases hl : cfg.arg_private_lib
    · rfl
    · simp [hf hl]
  unfold fs_private_bin_list
  rw [ho]
  simp only [andThen_trace, andThen_exit]
  cases (for_each (fun t => globbing h cfg t cfg.arg_private_lib)
    (tokens cfg.bin_private_keep)).exit <;> simp

theorem for_each_trace {α : Type} (f : α → Result) (l : List α) :
    ∃ n, n ≤ l.length ∧
      (for_each f l).trace = ((l.take n).map fun x => (f x).trace).flatten ∧
      ((for_each f l).exit = none → n = l.length) := by
  induction l with
  | nil => exact ⟨0, le_refl _, rfl, fun _ => rfl⟩
  | cons x xs ih =>
    obtain ⟨n, hn, htr, hex⟩ := ih
    cases hx : (f x).exit with
    | some e =>
      refine ⟨1, by simp, ?_, ?_⟩
      · simp [for_each, andThen_trace, hx]
      · simp [for_each, andThen_exit, hx]
    | none =>
      refine ⟨n + 1, by simpa using hn, ?_, ?_⟩
      · simp [for_each, andThen_trace, hx, htr]
      · intro hnone
        simp only [for_each, andThen_exit, hx, if_true] at hnone
        simp [hex hnone]

theorem mem_sweep_flatMap (h : Host) (cfg : Config) (d : String) (ps : List String)
    (hm : Event.mount cfg.RUN_BIN_DIR d ∈ ps.flatMap (sweep_step h cfg)) : d ∈ ps := by
  rw [List.mem_flatMap] at hm
  obtain ⟨p, hp, he⟩ := hm
  unfold sweep_step at he
  split at he
  · simp only [List.mem_cons, Event.mount.injEq, true_and, List.mem_singleton,
      List.not_mem_nil, or_false, reduceCtorEq] at he
    rw [he]
    exact hp
  · simp at he

theorem count_mount_sweep (h : Host) (cfg : Config) (d : String) (ps : List String)
    (hnd : ps.Nodup) (hd : d ∈ ps) (hex : (h.stat d).isSome = true) :
    (ps.flatMap (sweep_step h cfg)).count (Event.mount cfg.RUN_BIN_DIR d) = 1 := by
  induction ps with
  | nil => simp at hd
  | cons p rest ih =>
    rw [List.flatMap_cons, List.count_append]
    rw [List.nodup_cons] at hnd
    by_cases hpd : p = d
    · subst hpd
      have hrest : (rest.flatMap (sweep_step h cfg)).count (Event.mount cfg.RUN_BIN_DIR p) = 0 := by
        rw [List.count_eq_zero]
        exact fun hm => hnd.1 (mem_sweep_flatMap h cfg p rest hm)
      rw [hrest]
      simp [sweep_step, hex, List.count_cons]
    · have hd2 : d ∈ rest := by
        rcases List.mem_cons.mp hd with hh | hh
        · exact absurd hh.symm hpd
        · exact hh
      rw [ih hnd.2 hd2]
      have : (sweep_step h cfg p).count (Event.mount cfg.RUN_BIN_DIR d) = 0 := by
        rw [List.count_eq_zero]
        intro hm
        unfold sweep_step at hm
        split at hm
        · simp only [List.mem_cons, Event.mount.injEq, true_and, List.mem_singleton,
            List.not_mem_nil, or_false, reduceCtorEq] at hm
          exact hpd hm.symm
        · simp at hm
      rw [this]

theorem copies_append (a b : List Event) : copies (a ++ b) = copies a ++ copies b := by
  simp [copies, List.filterMap_append]

theorem copies_duplicate (h : Host) (cfg : Config) (f p : String) (fplist : Bool)
    (ht : tilde_or_dotdot f = false) (hv : h.invalid_filename f = false)
    (hr : resolve h cfg f = some p) :
    copies (duplicate h cfg f fplist).trace = copies (copy_file h cfg p) := by
  rw [duplicate_of_resolve h cfg f p fplist ht hv hr]
  simp only [copies_append]
  cases fplist <;> simp [copies]

theorem manifest_duplicate (h : Host) (cfg : Config) (f p : String) (fplist : Bool)
    (ht : tilde_or_dotdot f = false) (hv : h.invalid_filename f = false)
    (hr : resolve h cfg f = some p) :
    manifest (duplicate h cfg f fplist).trace = if fplist then [p ++ "\n"] else [] := by
  rw [duplicate_of_resolve h cfg f p fplist ht hv hr]
  simp only [manifest_append, manifest_copy_file]
  cases fplist <;> simp [manifest]

theorem copies_copy_file_mem (h : Host) (cfg : Config) (p : String) (args : List String)
    (ha : args ∈ copies (copy_file h cfg p)) :
    args = [cfg.PATH_FCOPY, "--follow-link", p, cfg.RUN_BIN_DIR] ∨
      args = [cfg.PATH_FCOPY, p, cfg.RUN_BIN_DIR] ∨
      ∃ t, args = [cfg.PATH_FCOPY, t, cfg.RUN_BIN_DIR] ∧ valid_full_path_file h cfg t = true := by
  unfold copy_file at ha
  split at ha
  · left
    simpa [copies] using ha
  · rw [copies_append, List.mem_append] at ha
    rcases ha with ha | ha
    · split at ha
      · split at ha
        · simp [copies] at ha
        · rename_i t _
          split at ha
          · rename_i hvt
            exact Or.inr (Or.inr ⟨t, by simpa [copies] using ha, hvt⟩)
          · simp [copies] at ha
      · simp [copies] at ha
    · right
      left
      simpa [copies] using ha

theorem resolve_trusted (h : Host) (cfg : Config) (f p : String)
    (hr : resolve h cfg f = some p) :
    (∃ d, check_dir_or_file h cfg f = some d ∧ d ∈ enabled_paths cfg ∧ p = d ++ "/" ++ f ∧
        ¬(∃ r : String, f = "/" ++ r)) ∨
      (p = f ∧ (∃ r : String, f = "/" ++ r) ∧ valid_full_path_file h cfg p = true) := by
  unfold resolve at hr
  split at hr
  · rename_i hh
    split at hr
    · rename_i hvf
      simp only [Option.some.injEq] at hr
      subst hr
      exact Or.inr ⟨rfl, (head_iff f '/').mp hh, hvf⟩
    · simp at hr
  · rename_i hh
    cases hc : check_dir_or_file h cfg f with
    | none => simp [hc] at hr
    | some d =>
      simp only [hc, Option.some.injEq] at hr
      refine Or.inl ⟨d, rfl, ?_, hr.symm, fun hx => hh ((head_iff f '/').mpr hx)⟩
      rw [check_dir_or_file_eq_find] at hc
      exact List.mem_of_find?_eq_some hc

theorem check_dir_or_file_accepted (h : Host) (cfg : Config) (name d : String)
    (hd : check_dir_or_file h cfg name = some d) :
    d ∈ enabled_paths cfg ∧ accepted h d name = true := by
  rw [check_dir_or_file_eq_find] at hd
  have hacc := List.find?_some hd
  exact ⟨List.mem_of_find?_eq_some hd, hacc⟩

theorem accepted_of_ne (h : Host) (d name : String) (hd : d ≠ "/usr/local/bin") :
    accepted h d name
      = match h.stat (d ++ "/" ++ name) with
        | none => false
        | some t => !S_ISDIR t := by
  unfold accepted launcher_symlink
  cases h.stat (d ++ "/" ++ name) <;> simp [hd]

theorem find_unique {α : Type} (p : α → Bool) (l : List α) (d : α) (hd : d ∈ l)
    (hp : p d = true) (hu : ∀ x ∈ l, x ≠ d → p x = false) : l.find? p = some d := by
  induction l with
  | nil => simp at hd
  | cons x xs ih =>
    rw [List.find?_cons]
    by_cases hx : x = d
    · rw [hx, hp]
    · rw [hu x (List.mem_cons_self x xs) hx]
      rcases List.mem_cons.mp hd with hh | hh
      · exact absurd hh.symm hx
      · exact ih hh fun y hy => hu y (List.mem_cons_of_mem x hy)

theorem find_congr {α : Type} (p q : α → Bool) (l : List α) (hpq : ∀ x ∈ l, p x = q x) :
    l.find? p = l.find? q := by
  induction l with
  | nil => rfl
  | cons x xs ih =>
    rw [List.find?_cons, List.find?_cons, hpq x (List.mem_cons_self x xs),
      ih fun y hy => hpq y (List.mem_cons_of_mem x hy)]

theorem valid_full_path_file_loop_congr (cfg1 cfg2 : Config) (full_name fname : String)
    (ps : List String) (hc : cfg1.private_bin_no_local = cfg2.private_bin_no_local) :
    valid_full_path_file_loop cfg1 full_name fname ps
      = valid_full_path_file_loop cfg2 full_name fname ps := by
  induction ps with
  | nil => rfl
  | cons p rest ih => simp only [valid_full_path_file_loop, skip_local, hc, ih]

/-- What a run that returns has done: the manifest was opened if asked for,
every token was processed, every mount succeeded, and the trace is the opening
events, the traces of the tokens, the closing events and the whole sweep. -/
theorem fs_private_bin_list_returned (h : Host) (cfg : Config)
    (hret : (fs_private_bin_list h cfg).exit = none) :
    (for_each (fun t => globbing h cfg t cfg.arg_private_lib)
        (tokens cfg.bin_private_keep)).exit = none ∧
      (∀ d ∈ paths, (h.stat d).isSome = true → h.mount cfg.RUN_BIN_DIR d = true) ∧
      (fs_private_bin_list h cfg).trace
        = ([Event.mkdir_attr cfg.RUN_BIN_DIR]
            ++ (if cfg.arg_private_lib then [Event.fopen cfg.RUN_LIB_BIN] else []))
          ++ (for_each (fun t => globbing h cfg t cfg.arg_private_lib)
            (tokens cfg.bin_private_keep)).trace
          ++ ([Event.fs_logger_print] ++ (if cfg.arg_private_lib then [Event.fclose] else [])
            ++ paths.flatMap (sweep_step h cfg)) := by
  have hf : cfg.arg_private_lib = true → h.fopen cfg.RUN_LIB_BIN = true := by
    intro hl
    cases hfo : h.fopen cfg.RUN_LIB_BIN with
    | true => rfl
    | false =>
      rw [fs_private_bin_list_fopen_failed h cfg hl hfo] at hret
      simp at hret
  obtain ⟨hex, htr⟩ := fs_private_bin_list_eq h cfg hf
  rw [hex] at hret
  cases hst : (for_each (fun t => globbing h cfg t cfg.arg_private_lib)
      (tokens cfg.bin_private_keep)).exit with
  | some e => simp [hst] at hret
  | none =>
    simp only [hst, if_true] at hret htr
    have hok := mount_bind_returned h cfg paths hret
    refine ⟨rfl, hok, ?_⟩
    rw [htr, mount_bind_ok h cfg paths hok]

theorem duplicate_args_glob (h : Host) (pattern : String) (ms : List String)
    (hm : h.glob_match pattern = some ms) :
    ∃ gl, glob h pattern = some gl ∧
      duplicate_args pattern gl = ms.filter fun g => g != pattern := by
  refine ⟨if ms = [] then [pattern] else ms, by simp [glob, hm], ?_⟩
  by_cases h0 : ms = []
  · simp [h0, duplicate_args]
  · simp [h0, duplicate_args]

theorem globbing_loop_eq (h : Host) (cfg : Config) (fname : String) (fplist : Bool)
    (ps : List String)
    (hg : ∀ d ∈ ps, skip_local cfg d = false →
      (h.glob_match (d ++ "/" ++ fname)).isSome = true) :
    globbing_loop h cfg fname fplist ps
      = for_each (fun g => duplicate h cfg g fplist)
          ((ps.filter fun p => !skip_local cfg p).flatMap fun d =>
            ((h.glob_match (d ++ "/" ++ fname)).getD []).filter
              fun g => g != d ++ "/" ++ fname) := by
  induction ps with
  | nil => rfl
  | cons p rest ih =>
    have ih2 := ih fun d hd => hg d (List.mem_cons_of_mem p hd)
    unfold globbing_loop
    by_cases hs : skip_local cfg p = true
    · simp only [hs, if_true, ih2]
      rw [List.filter_cons_of_neg (by simp [hs])]
    · have hsf : skip_local cfg p = false := by simpa using hs
      obtain ⟨ms, hms⟩ := Option.isSome_iff_exists.mp (hg p (List.mem_cons_self p rest) hsf)
      obtain ⟨gl, hgl, hda⟩ := duplicate_args_glob h _ ms hms
      simp only [hs, Bool.false_eq_true, if_false, hgl, hda, ih2]
      rw [List.filter_cons_of_pos (by simp [hsf]), List.flatMap_cons, for_each_append, hms]
      rfl

theorem globbing_loop_glob_failed (h : Host) (cfg : Config) (fname : String) (fplist : Bool)
    (ps : List String) (d : String) (hd : d ∈ ps) (hs : skip_local cfg d = false)
    (hg : h.glob_match (d ++ "/" ++ fname) = none) :
    (globbing_loop h cfg fname fplist ps).exit ≠ none := by
  induction ps with
  | nil => simp at hd
  | cons p rest ih =>
    unfold globbing_loop
    by_cases hsp : skip_local cfg p = true
    · simp only [hsp, if_true]
      rcases List.mem_cons.mp hd with rfl | hd2
      · rw [hs] at hsp
        simp at hsp
      · exact ih hd2
    · simp only [hsp, Bool.false_eq_true, if_false]
      cases hgl : glob h (p ++ "/" ++ fname) with
      | none => simp
      | some gl =>
        simp only [andThen_exit]
        split
        · rcases List.mem_cons.mp hd with rfl | hd2
          · simp [glob, hg] at hgl
          · exact ih hd2
        · assumption

theorem tokens_none (s : String) (hall : ∀ c ∈ s.data, c = ',') : tokens s = [none] := by
  unfold tokens strtok
  have : s.data.dropWhile (fun c => c == ',') = [] := by
    rw [List.dropWhile_eq_nil_iff]
    intro c hc
    simp [hall c hc]
  rw [this]

theorem mem_flatMap_sweep (h : Host) (cfg : Config) (d : String) (ps : List String)
    (hd : d ∈ ps) (hst : (h.stat d).isSome = true) :
    Event.mount cfg.RUN_BIN_DIR d ∈ ps.flatMap (sweep_step h cfg) ∧
      Event.fs_logger2 "tmpfs" d ∈ ps.flatMap (sweep_step h cfg) ∧
      Event.fs_logger2 "mount" d ∈ ps.flatMap (sweep_step h cfg) := by
  simp only [List.mem_flatMap]
  refine ⟨⟨d, hd, ?_⟩, ⟨d, hd, ?_⟩, ⟨d, hd, ?_⟩⟩ <;> simp [sweep_step, hst]

theorem sweep_event_of_mem (h : Host) (cfg : Config) (e : Event)
    (he : e ∈ (fs_private_bin_list h cfg).trace) (hs : is_sweep e = true) :
    ∃ d ∈ paths, (h.stat d).isSome = true ∧
      (e = Event.mount cfg.RUN_BIN_DIR d ∨ e = Event.fs_logger2 "tmpfs" d ∨
        e = Event.fs_logger2 "mount" d) := by
  by_cases hf : cfg.arg_private_lib = true → h.fopen cfg.RUN_LIB_BIN = true
  · have hnst : ∀ x ∈ (for_each (fun t => globbing h cfg t cfg.arg_private_lib)
        (tokens cfg.bin_private_keep)).trace, is_sweep x = false := by
      have := filter_for_each (fun t => globbing h cfg t cfg.arg_private_lib) is_sweep
        (tokens cfg.bin_private_keep) fun t =>
          filter_globbing h cfg t _ is_sweep (fun _ => rfl) (fun _ => rfl) (fun _ => rfl)
      rw [List.filter_eq_nil_iff] at this
      intro x hx
      simpa using this x hx
    rw [(fs_private_bin_list_eq h cfg hf).2] at he
    simp only [List.mem_append] at he
    rcases he with (he | he) | he
    · exfalso
      rcases he with he | he
      · simp only [List.mem_singleton] at he
        rw [he] at hs
        simp [is_sweep] at hs
      · split at he
        · simp only [List.mem_singleton] at he
          rw [he] at hs
          simp [is_sweep] at hs
        · simp at he
    · rw [hnst e he] at hs
      simp at hs
    · split at he
      · simp only [List.mem_append] at he
        rcases he with (he | he) | he
        · exfalso
          simp only [List.mem_singleton] at he
          rw [he] at hs
          simp [is_sweep] at hs
        · exfalso
          split at he
          · simp only [List.mem_singleton] at he
            rw [he] at hs
            simp [is_sweep] at hs
          · simp at he
        · exact mount_bind_mem h cfg paths e he
      · simp at he
  · exfalso
    have hl : cfg.arg_private_lib = true := by
      by_contra hl
      exact hf fun hh => absurd hh hl
    have hfo : h.fopen cfg.RUN_LIB_BIN = false := by
      cases hfo : h.fopen cfg.RUN_LIB_BIN with
      | false => rfl
      | true => exact absurd (fun _ => hfo) hf
    rw [fs_private_bin_list_fopen_failed h cfg hl hfo] at he
    simp only [List.mem_cons, List.mem_singleton, List.not_mem_nil, or_false] at he
    rcases he with rfl | rfl <;> simp [is_sweep] at hs

theorem filter_sweep_staged (h : Host) (cfg : Config) (tail : List Event)
    (ht : tail.filter is_sweep = tail) :
    (([Event.mkdir_attr cfg.RUN_BIN_DIR]
          ++ (if cfg.arg_private_lib then [Event.fopen cfg.RUN_LIB_BIN] else []))
        ++ (for_each (fun t => globbing h cfg t cfg.arg_private_lib)
          (tokens cfg.bin_private_keep)).trace
        ++ ([Event.fs_logger_print] ++ (if cfg.arg_private_lib then [Event.fclose] else [])
          ++ tail)).filter is_sweep = tail := by
  simp only [List.filter_append, ht]
  rw [filter_for_each _ is_sweep _ fun t =>
    filter_globbing h cfg t _ is_sweep (fun _ => rfl) (fun _ => rfl) (fun _ => rfl)]
  cases cfg.arg_private_lib <;> simp [is_sweep]

theorem filter_sweep_flatMap (h : Host) (cfg : Config) (ps : List String) :
    (ps.flatMap (sweep_step h cfg)).filter is_sweep = ps.flatMap (sweep_step h cfg) := by
  rw [List.filter_eq_self]
  intro e he
  rw [List.mem_flatMap] at he
  obtain ⟨d, -, hd⟩ := he
  unfold sweep_step at hd
  split at hd
  · simp only [List.mem_cons, List.mem_singleton, List.not_mem_nil, or_false] at hd
    rcases hd with rfl | rfl | rfl <;> simp [is_sweep]
  · simp at hd

/-! ## The claims -/

/-- C1: `valid_full_path_file p` returns 1 exactly when `realpath p` succeeds
with a canonical path `c = d ++ "/" ++ b` for an enabled trusted directory `d`,
where `b` is the non-empty text after the last slash of `c`; so a path whose
canonical form is `d ++ "/" ++ b` for no enabled `d` and no `b` is rejected,
whatever its literal text. -/
theorem C1_valid_full_path_file_canonical (h : Host) (cfg : Config) (p : String) :
    (valid_full_path_file h cfg p = true ↔
      ∃ c, h.realpath p = some c ∧ ∃ d ∈ enabled_paths cfg, ∃ b : String,
        b ≠ "" ∧ '/' ∉ b.data ∧ c = d ++ "/" ++ b) ∧
    ((∃ c, h.realpath p = some c ∧ ∀ d ∈ enabled_paths cfg, ∀ b : String, c ≠ d ++ "/" ++ b) →
      valid_full_path_file h cfg p = false) := by
  refine ⟨valid_full_path_file_iff h cfg p, ?_⟩
  rintro ⟨c, hc, hout⟩
  cases hv : valid_full_path_file h cfg p with
  | false => rfl
  | true =>
    obtain ⟨c2, hc2, d, hd, b, -, -, hcb⟩ := (valid_full_path_file_iff h cfg p).mp hv
    rw [hc] at hc2
    cases hc2
    exact absurd hcb (hout d hd b)

/-- C1 on a host where the literal path `/usr/bin/foo` leads to `/home/user/foo`. -/
theorem C1_valid_full_path_file_canonical_witness :
    host_redirect.realpath "/usr/bin/foo" = some "/home/user/foo" ∧
      valid_full_path_file host_redirect cfg_default "/usr/bin/foo" = false :=
  ⟨by decide,
   (C1_valid_full_path_file_canonical host_redirect cfg_default "/usr/bin/foo").2
    ⟨"/home/user/foo", by decide, by
      intro d hd b hb
      have hdata := congrArg String.data hb
      rw [data_path] at hdata
      have hd2 : d ∈ paths := ((mem_enabled_paths cfg_default d).mp hd).1
      simp only [paths, List.mem_cons, List.mem_singleton, List.not_mem_nil, or_false] at hd2
      rcases hd2 with rfl | rfl | rfl | rfl | rfl | rfl | rfl | rfl <;> simp at hdata⟩⟩

/-- C2, as stated, fails.  Reading presence as `stat` does: on `host_alias` the
name `fj` is a regular file in `/usr/local/bin` (index 0) and in `/usr/bin`, and
the result is `/usr/bin`; on `host_alias_only` it is one in `/usr/local/bin`
alone and no directory is returned.  Reading it as excluding symbolic links: on
`host_link` the only directory that holds `vi` as a regular file that is no link
is `/usr/bin`, and the result is `/usr/local/bin`. -/
theorem C2_lowest_index_counterexample :
    ((enabled_paths cfg_default).find?
        (fun d => host_alias.stat (d ++ "/" ++ "fj") == some FileType.reg)
        = some "/usr/local/bin" ∧
      check_dir_or_file host_alias cfg_default "fj" = some "/usr/bin") ∧
    ((enabled_paths cfg_default).filter
        (fun d => host_alias_only.stat (d ++ "/" ++ "fj") == some FileType.reg)
        = ["/usr/local/bin"] ∧
      check_dir_or_file host_alias_only cfg_default "fj" = none) ∧
    ((enabled_paths cfg_default).filter
        (fun d => host_link.stat (d ++ "/" ++ "vi") == some FileType.reg
          && !host_link.is_link (d ++ "/" ++ "vi"))
        = ["/usr/bin"] ∧
      check_dir_or_file host_link cfg_default "vi" = some "/usr/local/bin") := by
  decide

/-- C2, amended: for a bare name that is present as a regular file in an
enabled trusted directory where the launcher check does not reject it,
`check_dir_or_file` returns the enabled directory of lowest index among those
where `stat` finds a non-directory that the launcher check lets pass. -/
theorem C2_lowest_index_accepted (h : Host) (cfg : Config) (name : String)
    (hp : ∃ d ∈ enabled_paths cfg,
      h.stat (d ++ "/" ++ name) = some FileType.reg ∧ launcher_symlink h d name = false) :
    ∃ d, check_dir_or_file h cfg name = some d ∧
      (enabled_paths cfg).find? (fun d => accepted h d name) = some d := by
  rw [check_dir_or_file_eq_find]
  obtain ⟨d, hd, hst, hl⟩ := hp
  have hacc : accepted h d name = true := by
    simp [accepted, hst, hl, S_ISDIR]
  cases hf : (enabled_paths cfg).find? (fun d => accepted h d name) with
  | some d2 => exact ⟨d2, rfl, rfl⟩
  | none =>
    rw [List.find?_eq_none] at hf
    exact absurd hacc (hf d hd)

/-- C2, amended, on `host_alias`, where `/usr/bin` is returned for `fj`. -/
theorem C2_lowest_index_accepted_witness :
    ∃ d, check_dir_or_file host_alias cfg_default "fj" = some d ∧
      (enabled_paths cfg_default).find? (fun d => accepted host_alias d "fj") = some d :=
  C2_lowest_index_accepted host_alias cfg_default "fj"
    ⟨"/usr/bin", by decide, by decide, by decide⟩

/-- C3: for a filename `f` that passes the general validity check, `duplicate`
ends the process, and then with the invalid-filename error and an empty trace,
exactly when `f` starts with `~` or contains `..`; `~foo` and `a/../b` end it,
`foo` and `/usr/bin/foo` do not. -/
theorem C3_tilde_dotdot_fatal (h : Host) (cfg : Config) (fplist : Bool) (f : String)
    (hv : h.invalid_filename f = false) :
    ((duplicate h cfg f fplist).exit.isSome = true ↔
      ((∃ r : String, f = "~" ++ r) ∨ ∃ a b : String, f = a ++ ".." ++ b)) ∧
    (duplicate h cfg f fplist = ⟨[], some (Fatal.invalid_filename f)⟩ ↔
      ((∃ r : String, f = "~" ++ r) ∨ ∃ a b : String, f = a ++ ".." ++ b)) ∧
    duplicate h cfg "~foo" fplist = ⟨[], some (Fatal.invalid_filename "~foo")⟩ ∧
    duplicate h cfg "a/../b" fplist = ⟨[], some (Fatal.invalid_filename "a/../b")⟩ ∧
    (h.invalid_filename "foo" = false → (duplicate h cfg "foo" fplist).exit = none) ∧
    (h.invalid_filename "/usr/bin/foo" = false →
      (duplicate h cfg "/usr/bin/foo" fplist).exit = none) := by
  have key : ∀ g : String, h.invalid_filename g = false → tilde_or_dotdot g = false →
      (duplicate h cfg g fplist).exit = none := by
    intro g hg ht
    unfold duplicate
    rw [ht, hg]
    simp only [Bool.false_eq_true, if_false]
    cases resolve h cfg g <;> rfl
  have fatal : ∀ g : String, tilde_or_dotdot g = true →
      duplicate h cfg g fplist = ⟨[], some (Fatal.invalid_filename g)⟩ := by
    intro g ht
    unfold duplicate
    rw [ht]
    rfl
  refine ⟨?_, ?_, fatal _ (by decide), fatal _ (by decide),
    fun h1 => key _ h1 (by decide), fun h1 => key _ h1 (by decide)⟩
  · rw [← tilde_or_dotdot_iff]
    cases ht : tilde_or_dotdot f
    · simp [key f hv ht]
    · simp [fatal f ht]
  · rw [← tilde_or_dotdot_iff]
    cases ht : tilde_or_dotdot f
    · have := key f hv ht
      constructor
      · intro heq
        rw [heq] at this
        simp at this
      · intro hft
        simp at hft
    · simp [fatal f ht]

/-- C3 on the filename `~foo`. -/
theorem C3_tilde_dotdot_fatal_witness :
    host_empty.invalid_filename "~foo" = false ∧
      duplicate host_empty cfg_default "~foo" true
        = ⟨[], some (Fatal.invalid_filename "~foo")⟩ :=
  ⟨rfl, (C3_tilde_dotdot_fatal host_empty cfg_default true "~foo" rfl).2.1.mpr
    (Or.inl ⟨"foo", by decide⟩)⟩

/-- C4 fails on the code: `/usr/local/bin/fj` is a symbolic link whose canonical
target `/opt/firejail/firejail` has the final component `firejail`, and
`check_dir_or_file` returns `/usr/local/bin` for it, because the first
`/firejail` of the target is not its end. -/
theorem C4_launcher_below_firejail_dir :
    host_opt.stat ("/usr/local/bin" ++ "/" ++ "fj") = some FileType.reg ∧
      host_opt.is_link ("/usr/local/bin" ++ "/" ++ "fj") = true ∧
      host_opt.realpath ("/usr/local/bin" ++ "/" ++ "fj") = some "/opt/firejail/firejail" ∧
      strstr "/opt/firejail/firejail" "/firejail" = some "/firejail/firejail" ∧
      check_dir_or_file host_opt cfg_default "fj" = some "/usr/local/bin" := by
  decide

/-- C5: with the no-local option set, `check_dir_or_file` returns none of the
three local directories, `valid_full_path_file` refuses every path whose
canonical form lies in one of them, what the glob engine would answer for a
pattern in one of them has no bearing on `globbing`, and `globbing` hands to
`duplicate` the matches in the five other directories.  With the option off no
directory of `paths[]` is skipped: all eight are scanned by `check_dir_or_file`,
trusted by `valid_full_path_file` and globbed by `globbing`, which hands the
matches of all eight to `duplicate` and ends the process if the glob engine
fails in any of them. -/
theorem C5_no_local_option (cfg : Config) :
    (cfg.private_bin_no_local = true →
      (∀ (h : Host) (name d : String), check_dir_or_file h cfg name = some d →
        d ≠ "/usr/local/bin" ∧ d ≠ "/usr/local/games" ∧ d ≠ "/usr/local/sbin") ∧
      (∀ (h : Host) (p d b : String),
        d ∈ ["/usr/local/bin", "/usr/local/games", "/usr/local/sbin"] →
        h.realpath p = some (d ++ "/" ++ b) → valid_full_path_file h cfg p = false) ∧
      (∀ (h : Host) (g : String → Option (List String)) (fname : String) (fplist : Bool),
        (∀ pat : String,
          (∀ d ∈ ["/usr/local/bin", "/usr/local/games", "/usr/local/sbin"],
            pat ≠ d ++ "/" ++ fname) → g pat = h.glob_match pat) →
        globbing { h with glob_match := g } cfg (some fname) fplist
          = globbing h cfg (some fname) fplist) ∧
      (∀ (h : Host) (fname : String) (fplist : Bool),
        ('*' ∈ fname.data ∨ '[' ∈ fname.data ∨ '?' ∈ fname.data) →
        (∀ d ∈ ["/usr/bin", "/bin", "/usr/games", "/usr/sbin", "/sbin"],
          (h.glob_match (d ++ "/" ++ fname)).isSome = true) →
        globbing h cfg (some fname) fplist
          = for_each (fun g => duplicate h cfg g fplist)
              (["/usr/bin", "/bin", "/usr/games", "/usr/sbin", "/sbin"].flatMap fun d =>
                ((h.glob_match (d ++ "/" ++ fname)).getD []).filter
                  fun g => g != d ++ "/" ++ fname))) ∧
    (cfg.private_bin_no_local = false →
      (∀ d ∈ paths, skip_local cfg d = false) ∧ enabled_paths cfg = paths ∧ paths.length = 8 ∧
      (∀ (h : Host) (name : String),
        check_dir_or_file h cfg name = paths.find? fun d => accepted h d name) ∧
      (∀ (h : Host) (p d b : String), d ∈ paths → b ≠ "" → '/' ∉ b.data →
        h.realpath p = some (d ++ "/" ++ b) → valid_full_path_file h cfg p = true) ∧
      (∀ (h : Host) (fname : String) (fplist : Bool),
        ('*' ∈ fname.data ∨ '[' ∈ fname.data ∨ '?' ∈ fname.data) →
        (∀ d ∈ paths, (h.glob_match (d ++ "/" ++ fname)).isSome = true) →
        globbing h cfg (some fname) fplist
          = for_each (fun g => duplicate h cfg g fplist)
              (paths.flatMap fun d =>
                ((h.glob_match (d ++ "/" ++ fname)).getD []).filter
                  fun g => g != d ++ "/" ++ fname)) ∧
      (∀ (h : Host) (fname : String) (fplist : Bool),
        ('*' ∈ fname.data ∨ '[' ∈ fname.data ∨ '?' ∈ fname.data) →
        ∀ d ∈ paths, h.glob_match (d ++ "/" ++ fname) = none →
        (globbing h cfg (some fname) fplist).exit ≠ none)) := by
  have hglob : ∀ (h : Host) (fname : String) (fplist : Bool),
      ('*' ∈ fname.data ∨ '[' ∈ fname.data ∨ '?' ∈ fname.data) →
      (∀ d ∈ enabled_paths cfg, (h.glob_match (d ++ "/" ++ fname)).isSome = true) →
      globbing h cfg (some fname) fplist
        = for_each (fun g => duplicate h cfg g fplist)
            ((enabled_paths cfg).flatMap fun d =>
              ((h.glob_match (d ++ "/" ++ fname)).getD []).filter
                fun g => g != d ++ "/" ++ fname) := by
    intro h fname fplist hg hsome
    unfold globbing
    simp only [(has_glob_char_iff fname).mpr hg, if_true]
    exact globbing_loop_eq h cfg fname fplist paths
      fun d hd hs => hsome d ((mem_enabled_paths cfg d).mpr ⟨hd, hs⟩)
  constructor
  · intro hno
    have hen := enabled_paths_no_local cfg hno
    refine ⟨?_, ?_, ?_, ?_⟩
    · intro h name d hd
      rw [check_dir_or_file_eq_find, hen] at hd
      have hmem := List.mem_of_find?_eq_some hd
      simp only [List.mem_cons, List.mem_singleton, List.not_mem_nil, or_false] at hmem
      rcases hmem with rfl | rfl | rfl | rfl | rfl <;> decide
    · intro h p d b hd hr
      cases hv : valid_full_path_file h cfg p with
      | false => rfl
      | true =>
        exfalso
        obtain ⟨c, hc, d2, hd2, b2, -, -, hcb⟩ := (valid_full_path_file_iff h cfg p).mp hv
        rw [hr] at hc
        cases hc
        have hdata := congrArg String.data hcb
        rw [data_path, data_path] at hdata
        rw [hen] at hd2
        simp only [List.mem_cons, List.mem_singleton, List.not_mem_nil, or_false] at hd hd2
        rcases hd with rfl | rfl | rfl <;>
          rcases hd2 with rfl | rfl | rfl | rfl | rfl <;> simp at hdata
    · intro h g fname fplist hg
      unfold globbing
      simp only [duplicate_glob_match]
      split
      · apply globbing_loop_glob_match
        intro d hd hs
        apply hg
        intro d2 hd2 heq
        have hdd := path_inj d d2 fname heq
        have hmem : d ∈ enabled_paths cfg := (mem_enabled_paths cfg d).mpr ⟨hd, hs⟩
        rw [hen, hdd] at hmem
        simp only [List.mem_cons, List.mem_singleton, List.not_mem_nil, or_false] at hd2
        rcases hd2 with rfl | rfl | rfl <;> revert hmem <;> decide
      · rfl
    · intro h fname fplist hg hsome
      have := hglob h fname fplist hg (by rw [hen]; exact hsome)
      rw [hen] at this
      exact this
  · intro hno
    have hen := enabled_paths_all cfg hno
    refine ⟨fun d _ => skip_local_off cfg hno d, hen, rfl, ?_, ?_, ?_, ?_⟩
    · intro h name
      rw [check_dir_or_file_eq_find, hen]
    · intro h p d b hd hb hs hr
      rw [valid_full_path_file_iff]
      exact ⟨_, hr, d, by rw [hen]; exact hd, b, hb, hs, rfl⟩
    · intro h fname fplist hg hsome
      have := hglob h fname fplist hg (by rw [hen]; exact hsome)
      rw [hen] at this
      exact this
    · intro h fname fplist hg d hd hnone
      unfold globbing
      simp only [(has_glob_char_iff fname).mpr hg, if_true]
      exact globbing_loop_glob_failed h cfg fname fplist paths d hd
        (skip_local_off cfg hno d) hnone

/-- C5 on `host_local_ls`, where `ls` is in `/usr/local/bin` alone: with the
option set `ls` is not found, `/usr/local/bin/ls` is refused and the pattern `l*`
hands nothing to `duplicate`; with the option off the pattern hands
`/usr/local/bin/ls` to `duplicate`, which copies it. -/
theorem C5_no_local_option_witness :
    cfg_no_local.private_bin_no_local = true ∧
      check_dir_or_file host_local_ls cfg_no_local "ls" = none ∧
      valid_full_path_file host_local_ls cfg_no_local "/usr/local/bin/ls" = false ∧
      globbing host_local_ls cfg_no_local (some "l*") true = for_each
        (fun g => duplicate host_local_ls cfg_no_local g true) [] ∧
      globbing host_local_ls cfg_default (some "l*") true = for_each
        (fun g => duplicate host_local_ls cfg_default g true) ["/usr/local/bin/ls"] ∧
      copies (globbing host_local_ls cfg_default (some "l*") true).trace
        = [["/usr/lib/firejail/fcopy", "/usr/local/bin/ls", "/run/firejail/mnt/bin"]] :=
  ⟨rfl, by decide,
   ((C5_no_local_option cfg_no_local).1 rfl).2.1 host_local_ls "/usr/local/bin/ls"
      "/usr/local/bin" "ls" (by decide) (by decide),
   ((C5_no_local_option cfg_no_local).1 rfl).2.2.2 host_local_ls "l*" true
      (Or.inl (by decide)) (by decide),
   ((C5_no_local_option cfg_default).2 rfl).2.2.2.2.2.1 host_local_ls "l*" true
      (Or.inl (by decide)) (by decide),
   by decide⟩

/-- C6, as stated, fails: with the no-local option set and `/usr/local/bin`
present on the host, the run mounts the staging directory over `/usr/local/bin`
and writes both audit entries for it. -/
theorem C6_sweep_mounts_local_counterexample :
    cfg_no_local.private_bin_no_local = true ∧
      host_local_ls.stat "/usr/local/bin" = some FileType.dir ∧
      fs_private_bin_list host_local_ls cfg_no_local
        = ⟨[Event.mkdir_attr "/run/firejail/mnt/bin", Event.fs_logger_print,
            Event.mount "/run/firejail/mnt/bin" "/usr/local/bin",
            Event.fs_logger2 "tmpfs" "/usr/local/bin",
            Event.fs_logger2 "mount" "/usr/local/bin"], none⟩ := by
  decide

/-- C6, amended: the mount sweep does not read the no-local option; in every
run that returns, each directory of `paths[]` that exists on the host, the
three local ones included, has been mounted over and has its `tmpfs` and `mount`
audit entries, whether the option is set or not. -/
theorem C6_sweep_ignores_no_local (h : Host) (cfg : Config)
    (hret : (fs_private_bin_list h cfg).exit = none) :
    (∀ d ∈ paths, (h.stat d).isSome = true →
      Event.mount cfg.RUN_BIN_DIR d ∈ (fs_private_bin_list h cfg).trace ∧
      Event.fs_logger2 "tmpfs" d ∈ (fs_private_bin_list h cfg).trace ∧
      Event.fs_logger2 "mount" d ∈ (fs_private_bin_list h cfg).trace) ∧
    (∀ b : Bool, mount_bind h { cfg with private_bin_no_local := b } paths
      = mount_bind h cfg paths) := by
  refine ⟨?_, fun b => mount_bind_no_local h cfg b paths⟩
  intro d hd hex
  obtain ⟨-, -, htr⟩ := fs_private_bin_list_returned h cfg hret
  have hm := mem_flatMap_sweep h cfg d paths hd hex
  rw [htr]
  simp only [List.mem_append]
  exact ⟨Or.inr (Or.inr hm.1), Or.inr (Or.inr hm.2.1), Or.inr (Or.inr hm.2.2)⟩

/-- C6, amended, on `host_local_ls` with the option set. -/
theorem C6_sweep_ignores_no_local_witness :
    Event.mount "/run/firejail/mnt/bin" "/usr/local/bin"
        ∈ (fs_private_bin_list host_local_ls cfg_no_local).trace ∧
      Event.fs_logger2 "tmpfs" "/usr/local/bin"
        ∈ (fs_private_bin_list host_local_ls cfg_no_local).trace ∧
      Event.fs_logger2 "mount" "/usr/local/bin"
        ∈ (fs_private_bin_list host_local_ls cfg_no_local).trace :=
  (C6_sweep_ignores_no_local host_local_ls cfg_no_local (by decide)).1
    "/usr/local/bin" (by decide) (by decide)

/-- C7, as stated, fails: on `host_dots` no file exists in any trusted
directory, yet for the pattern `*` the glob engine returns the entries `.` and
`..` of `/usr/bin`, both are handed to `duplicate`, and the second one ends the
process with the invalid-filename error. -/
theorem C7_dot_entries_counterexample :
    has_glob_char "*" = true ∧
      glob host_dots ("/usr/bin" ++ "/" ++ "*") = some ["/usr/bin/.", "/usr/bin/.."] ∧
      duplicate_args ("/usr/bin" ++ "/" ++ "*") ["/usr/bin/.", "/usr/bin/.."]
        = ["/usr/bin/.", "/usr/bin/.."] ∧
      globbing host_dots cfg_default (some "*") true
        = ⟨[], some (Fatal.invalid_filename "/usr/bin/..")⟩ := by
  decide

/-- C7, amended: a token that contains `*`, `[` or `?` is globbed in every
enabled trusted directory, and what `globbing` hands to `duplicate` are the path
names the glob engine returns that differ from the pattern, in the order of the
directories.  So when the glob engine finds no path name in any enabled trusted
directory, it answers with the pattern alone in each of them, which is not
handed to `duplicate`, and `globbing` returns with an empty trace. -/
theorem C7_glob_without_match (h : Host) (cfg : Config) (fname : String) (fplist : Bool)
    (hg : '*' ∈ fname.data ∨ '[' ∈ fname.data ∨ '?' ∈ fname.data) :
    ((∀ d ∈ enabled_paths cfg, (h.glob_match (d ++ "/" ++ fname)).isSome = true) →
      globbing h cfg (some fname) fplist
        = for_each (fun g => duplicate h cfg g fplist)
            ((enabled_paths cfg).flatMap fun d =>
              ((h.glob_match (d ++ "/" ++ fname)).getD []).filter
                fun g => g != d ++ "/" ++ fname)) ∧
    ((∀ d ∈ enabled_paths cfg, h.glob_match (d ++ "/" ++ fname) = some []) →
      globbing h cfg (some fname) fplist = ⟨[], none⟩ ∧
      ∀ d ∈ enabled_paths cfg,
        glob h (d ++ "/" ++ fname) = some [d ++ "/" ++ fname] ∧
        duplicate_args (d ++ "/" ++ fname) [d ++ "/" ++ fname] = []) := by
  constructor
  · intro hsome
    unfold globbing
    simp only [(has_glob_char_iff fname).mpr hg, if_true]
    exact globbing_loop_eq h cfg fname fplist paths
      fun d hd hs => hsome d ((mem_enabled_paths cfg d).mpr ⟨hd, hs⟩)
  · intro hno
    constructor
    · unfold globbing
      simp only [(has_glob_char_iff fname).mpr hg, if_true]
      exact globbing_loop_no_match h cfg fname fplist paths
        fun d hd hs => hno d ((mem_enabled_paths cfg d).mpr ⟨hd, hs⟩)
    · intro d hd
      exact ⟨glob_no_match h _ (hno d hd), duplicate_args_self _⟩

/-- C7, amended, on the pattern `g*` and a host where nothing matches it. -/
theorem C7_glob_without_match_witness :
    globbing host_empty cfg_default (some "g*") true = ⟨[], none⟩ ∧
      ∀ d ∈ enabled_paths cfg_default,
        glob host_empty (d ++ "/" ++ "g*") = some [d ++ "/" ++ "g*"] ∧
        duplicate_args (d ++ "/" ++ "g*") [d ++ "/" ++ "g*"] = [] :=
  (C7_glob_without_match host_empty cfg_default "g*" true (Or.inl (by decide))).2
    (fun _ _ => rfl)

/-- C8: for a filename that passes both validity checks and fails resolution
(absolute and refused by `valid_full_path_file`, or bare and not found by
`check_dir_or_file`), `duplicate` returns with an empty trace, so that whatever
follows it runs unchanged. -/
theorem C8_unresolved_is_skipped (h : Host) (cfg : Config) (fplist : Bool) (f : String)
    (h1 : ¬((∃ r : String, f = "~" ++ r) ∨ ∃ a b : String, f = a ++ ".." ++ b))
    (h2 : h.invalid_filename f = false)
    (h3 : ((∃ r : String, f = "/" ++ r) ∧ valid_full_path_file h cfg f = false) ∨
          ((¬∃ r : String, f = "/" ++ r) ∧ check_dir_or_file h cfg f = none)) :
    duplicate h cfg f fplist = ⟨[], none⟩ ∧
      ∀ k : Result, (duplicate h cfg f fplist).andThen k = k := by
  have ht : tilde_or_dotdot f = false := by
    rw [← tilde_or_dotdot_iff] at h1
    simpa using h1
  have hr : resolve h cfg f = none := by
    unfold resolve
    rcases h3 with ⟨ha, hvf⟩ | ⟨ha, hc⟩
    · rw [if_pos ((head_iff f '/').mpr ha), hvf]
      rfl
    · rw [if_neg (fun hh => ha ((head_iff f '/').mp hh)), hc]
  have hd : duplicate h cfg f fplist = ⟨[], none⟩ := by
    unfold duplicate
    rw [ht, h2, hr]
    rfl
  refine ⟨hd, fun k => ?_⟩
  rw [hd]
  rfl

/-- C8 on a host without `/usr/bin/foo`. -/
theorem C8_unresolved_is_skipped_witness :
    duplicate host_empty cfg_default "/usr/bin/foo" true = ⟨[], none⟩ ∧
      ∀ k : Result, (duplicate host_empty cfg_default "/usr/bin/foo" true).andThen k = k :=
  C8_unresolved_is_skipped host_empty cfg_default true "/usr/bin/foo"
    (by rw [← tilde_or_dotdot_iff]; decide) rfl
    (Or.inl ⟨⟨"usr/bin/foo", by decide⟩, by decide⟩)

/-- C9, as stated, fails: the allowlist `a,,b` split at every comma has the
three pieces `a`, the empty string and `b`, and `globbing` is handed the two
tokens `a` and `b` only. -/
theorem C9_empty_token_dropped_counterexample :
    comma_split "a,,b" = ["a", "", "b"] ∧
      tokens "a,,b" = [some "a", some "b"] ∧
      tokens "a,,b" ≠ (comma_split "a,,b").map some := by
  decide

/-- C9, amended: for an allowlist with at least one character other than a
comma, the tokens handed to `globbing` are the non-empty pieces of the string
split at every comma, in order and untrimmed; no empty token is handed on. -/
theorem C9_tokens_are_nonempty_pieces (s : String) (hne : ∃ c ∈ s.data, c ≠ ',') :
    tokens s = ((comma_split s).filter fun t => t ≠ "").map some ∧
      some "" ∉ tokens s := by
  have heq : tokens s = ((comma_split s).filter fun t => t ≠ "").map some := by
    rw [tokens_eq s hne, comma_split_filter, List.map_map]
    rfl
  refine ⟨heq, ?_⟩
  rw [heq]
  simp

/-- C9, amended, on the allowlist `a,,b`. -/
theorem C9_tokens_are_nonempty_pieces_witness :
    tokens "a,,b" = ((comma_split "a,,b").filter fun t => t ≠ "").map some ∧
      some "" ∉ tokens "a,,b" :=
  C9_tokens_are_nonempty_pieces "a,,b" ⟨'a', by decide, by decide⟩

/-- C10: for a filename that passes both validity checks and resolves,
`duplicate` with an open manifest writes exactly one line, the resolved path
and a newline: the filename itself when it is absolute, `d ++ "/" ++ f` when it
is a bare name and `check_dir_or_file` returned `d`; without a manifest nothing
is written, whatever the filename. -/
theorem C10_manifest_one_line (h : Host) (cfg : Config) (f : String)
    (h1 : ¬((∃ r : String, f = "~" ++ r) ∨ ∃ a b : String, f = a ++ ".." ++ b))
    (h2 : h.invalid_filename f = false) :
    ((∃ r : String, f = "/" ++ r) → valid_full_path_file h cfg f = true →
      manifest (duplicate h cfg f true).trace = [f ++ "\n"]) ∧
    (∀ d : String, (¬∃ r : String, f = "/" ++ r) → check_dir_or_file h cfg f = some d →
      manifest (duplicate h cfg f true).trace = [d ++ "/" ++ f ++ "\n"]) ∧
    (∀ g : String, manifest (duplicate h cfg g false).trace = []) := by
  have ht : tilde_or_dotdot f = false := by
    rw [← tilde_or_dotdot_iff] at h1
    simpa using h1
  have hm : ∀ full : String, resolve h cfg f = some full →
      manifest (duplicate h cfg f true).trace = [full ++ "\n"] := by
    intro full hr
    unfold duplicate
    rw [ht, h2, hr]
    simp only [Bool.false_eq_true, if_false, if_true, manifest_append, manifest_copy_file]
    rfl
  refine ⟨fun ha hvf => hm f ?_, fun d ha hc => hm _ ?_, fun g => ?_⟩
  · unfold resolve
    rw [if_pos ((head_iff f '/').mpr ha), hvf]
    rfl
  · unfold resolve
    rw [if_neg (fun hh => ha ((head_iff f '/').mp hh)), hc]
  · unfold duplicate
    split
    · rfl
    · split
      · rfl
      · split
        · rfl
        · simp only [Bool.false_eq_true, if_false, manifest_append, manifest_copy_file]
          rfl

/-- C10 on `host_ls`: the bare name `ls` is written as `/usr/bin/ls`. -/
theorem C10_manifest_one_line_witness :
    check_dir_or_file host_ls cfg_default "ls" = some "/usr/bin" ∧
      manifest (duplicate host_ls cfg_default "ls" true).trace = ["/usr/bin/ls\n"] :=
  ⟨by decide,
   (C10_manifest_one_line host_ls cfg_default "ls"
      (by rw [← tilde_or_dotdot_iff]; decide) rfl).2.1 "/usr/bin"
      (fun hh => absurd ((head_iff "ls" '/').mpr hh) (by decide)) (by decide)⟩

/-- C12, as stated, fails: on `host_busy` the directories `/usr/bin` and `/sbin`
exist and the mount over `/usr/bin` fails; the run ends there, so the mount over
`/usr/bin` is followed by no audit entry and no mount is issued for `/sbin`. -/
theorem C12_failed_mount_counterexample :
    (host_busy.stat "/usr/bin").isSome = true ∧ (host_busy.stat "/sbin").isSome = true ∧
      fs_private_bin_list host_busy cfg_default
        = ⟨[Event.mkdir_attr "/run/firejail/mnt/bin", Event.fs_logger_print,
            Event.mount "/run/firejail/mnt/bin" "/usr/bin"],
           some (Fatal.mount_bind "/usr/bin")⟩ := by
  decide

/-- C12, amended: the mount sweep goes through `paths[]` in list order.  For a
directory on which `stat` fails it issues no mount and no audit entry, in any
run.  For one on which `stat` succeeds it issues the bind mount of the staging
directory; if the mount succeeds the audit entries `tmpfs` and `mount` follow,
and if it fails the process ends at once.  So in a run that returns the sweep
events of the trace are the mount and the two entries of each existing
directory, in list order, each mount exactly once; and when the sweep is
reached and the first failing mount is the one over `d`, the sweep events are
those of the existing directories before `d` and then the mount over `d` alone. -/
theorem C12_mount_sweep (h : Host) (cfg : Config) :
    (∀ d : String, (h.stat d).isSome = true →
      sweep_step h cfg d = [Event.mount cfg.RUN_BIN_DIR d, Event.fs_logger2 "tmpfs" d,
        Event.fs_logger2 "mount" d]) ∧
    (∀ d : String, h.stat d = none →
      sweep_step h cfg d = [] ∧
      Event.mount cfg.RUN_BIN_DIR d ∉ (fs_private_bin_list h cfg).trace ∧
      Event.fs_logger2 "tmpfs" d ∉ (fs_private_bin_list h cfg).trace ∧
      Event.fs_logger2 "mount" d ∉ (fs_private_bin_list h cfg).trace) ∧
    ((fs_private_bin_list h cfg).exit = none →
      (fs_private_bin_list h cfg).trace.filter is_sweep = paths.flatMap (sweep_step h cfg) ∧
      ∀ d ∈ paths, (h.stat d).isSome = true →
        (fs_private_bin_list h cfg).trace.count (Event.mount cfg.RUN_BIN_DIR d) = 1) ∧
    (∀ (pre post : List String) (d : String), paths = pre ++ d :: post →
      (cfg.arg_private_lib = true → h.fopen cfg.RUN_LIB_BIN = true) →
      (for_each (fun t => globbing h cfg t cfg.arg_private_lib)
        (tokens cfg.bin_private_keep)).exit = none →
      (∀ x ∈ pre, (h.stat x).isSome = true → h.mount cfg.RUN_BIN_DIR x = true) →
      (h.stat d).isSome = true → h.mount cfg.RUN_BIN_DIR d = false →
      (fs_private_bin_list h cfg).exit = some (Fatal.mount_bind d) ∧
      (fs_private_bin_list h cfg).trace.filter is_sweep
        = pre.flatMap (sweep_step h cfg) ++ [Event.mount cfg.RUN_BIN_DIR d]) := by
  refine ⟨?_, ?_, ?_, ?_⟩
  · intro d hd
    simp [sweep_step, hd]
  · intro d hd
    have key : ∀ e, (e = Event.mount cfg.RUN_BIN_DIR d ∨ e = Event.fs_logger2 "tmpfs" d ∨
        e = Event.fs_logger2 "mount" d) → e ∉ (fs_private_bin_list h cfg).trace := by
      intro e he hmem
      have hs : is_sweep e = true := by
        rcases he with rfl | rfl | rfl <;> simp [is_sweep]
      obtain ⟨d2, -, hst, hr⟩ := sweep_event_of_mem h cfg e hmem hs
      have hdd : d2 = d := by
        rcases he with rfl | rfl | rfl <;> rcases hr with hr | hr | hr <;>
          simp at hr <;> exact hr.symm
      rw [hdd, hd] at hst
      simp at hst
    exact ⟨by simp [sweep_step, hd], key _ (Or.inl rfl), key _ (Or.inr (Or.inl rfl)),
      key _ (Or.inr (Or.inr rfl))⟩
  · intro hret
    obtain ⟨-, -, htr⟩ := fs_private_bin_list_returned h cfg hret
    have hsw : (fs_private_bin_list h cfg).trace.filter is_sweep
        = paths.flatMap (sweep_step h cfg) := by
      rw [htr]
      exact filter_sweep_staged h cfg _ (filter_sweep_flatMap h cfg paths)
    refine ⟨hsw, fun d hd hst => ?_⟩
    have hc : (fs_private_bin_list h cfg).trace.count (Event.mount cfg.RUN_BIN_DIR d)
        = ((fs_private_bin_list h cfg).trace.filter is_sweep).count
            (Event.mount cfg.RUN_BIN_DIR d) :=
      (List.count_filter (by rfl)).symm
    rw [hc, hsw]
    exact count_mount_sweep h cfg d paths (by decide) hd hst
  · intro pre post d hp hf hstg hok hst hm
    obtain ⟨hex, htr⟩ := fs_private_bin_list_eq h cfg hf
    have hmb := mount_bind_failed h cfg pre post d hok hst hm
    rw [← hp] at hmb
    rw [hstg, hmb] at hex
    rw [hstg, hmb] at htr
    simp only [if_true] at hex htr
    refine ⟨hex, ?_⟩
    rw [htr]
    apply filter_sweep_staged
    rw [List.filter_append, filter_sweep_flatMap]
    simp [is_sweep]

/-- C12, amended, on `host_ls_sbin`: `/usr/bin` and `/bin` are mounted over and
logged, and the failed mount over `/sbin`, the last directory, ends the run. -/
theorem C12_mount_sweep_witness :
    (fs_private_bin_list host_ls_sbin cfg_default).exit = some (Fatal.mount_bind "/sbin") ∧
      (fs_private_bin_list host_ls_sbin cfg_default).trace.filter is_sweep
        = ["/usr/local/bin", "/usr/bin", "/bin", "/usr/games", "/usr/local/games",
            "/usr/local/sbin", "/usr/sbin"].flatMap (sweep_step host_ls_sbin cfg_default)
          ++ [Event.mount cfg_default.RUN_BIN_DIR "/sbin"] :=
  (C12_mount_sweep host_ls_sbin cfg_default).2.2.2
    ["/usr/local/bin", "/usr/bin", "/bin", "/usr/games", "/usr/local/games",
      "/usr/local/sbin", "/usr/sbin"] [] "/sbin" (by decide) (fun _ => rfl) (by decide)
    (by decide) (by decide) (by decide)

/-- C13: the tokens handed to `globbing` are the non-empty pieces of the
allowlist string between its commas, in the order of the string (the null
pointer alone when there is none), and the trace of every run is a staging part
followed by a mount part.  The staging part is the opening events and then the
traces of `globbing` on the tokens, in this order, up to the token that ends the
process if one does; it holds no mount.  The mount part holds no copy request
and no manifest write, and it is empty unless every token has been processed. -/
theorem C13_mounts_after_staging (h : Host) (cfg : Config) :
    ((∃ c ∈ cfg.bin_private_keep.data, c ≠ ',') →
      tokens cfg.bin_private_keep
        = ((comma_split cfg.bin_private_keep).filter fun t => t ≠ "").map some) ∧
    ((∀ c ∈ cfg.bin_private_keep.data, c = ',') → tokens cfg.bin_private_keep = [none]) ∧
    ∃ (n : Nat) (post : List Event),
      n ≤ (tokens cfg.bin_private_keep).length ∧
      (fs_private_bin_list h cfg).trace
        = ([Event.mkdir_attr cfg.RUN_BIN_DIR]
            ++ (if cfg.arg_private_lib then [Event.fopen cfg.RUN_LIB_BIN] else [])
            ++ (((tokens cfg.bin_private_keep).take n).map
                fun t => (globbing h cfg t cfg.arg_private_lib).trace).flatten)
          ++ post ∧
      (([Event.mkdir_attr cfg.RUN_BIN_DIR]
            ++ (if cfg.arg_private_lib then [Event.fopen cfg.RUN_LIB_BIN] else [])
            ++ (((tokens cfg.bin_private_keep).take n).map
                fun t => (globbing h cfg t cfg.arg_private_lib).trace).flatten).filter
          is_mount = []) ∧
      post.filter is_staging = [] ∧
      (n < (tokens cfg.bin_private_keep).length → post = []) ∧
      ((fs_private_bin_list h cfg).exit = none → n = (tokens cfg.bin_private_keep).length) := by
  refine ⟨fun hne => ?_, tokens_none cfg.bin_private_keep, ?_⟩
  · rw [tokens_eq _ hne, comma_split_filter, List.map_map]
    rfl
  have hlen : 0 < (tokens cfg.bin_private_keep).length := by
    unfold tokens
    cases strtok cfg.bin_private_keep.data <;> simp
  by_cases hf : cfg.arg_private_lib = true → h.fopen cfg.RUN_LIB_BIN = true
  · obtain ⟨hex, htr⟩ := fs_private_bin_list_eq h cfg hf
    obtain ⟨n, hn, hft, hfe⟩ := for_each_trace (fun t => globbing h cfg t cfg.arg_private_lib)
      (tokens cfg.bin_private_keep)
    have hnm : (for_each (fun t => globbing h cfg t cfg.arg_private_lib)
        (tokens cfg.bin_private_keep)).trace.filter is_mount = [] :=
      filter_for_each _ is_mount _ fun t =>
        filter_globbing h cfg t _ is_mount (fun _ => rfl) (fun _ => rfl) (fun _ => rfl)
    refine ⟨n,
      (if (for_each (fun t => globbing h cfg t cfg.arg_private_lib)
          (tokens cfg.bin_private_keep)).exit = none
        then [Event.fs_logger_print] ++ (if cfg.arg_private_lib then [Event.fclose] else [])
          ++ (mount_bind h cfg paths).trace
        else []), hn, ?_, ?_, ?_, ?_, ?_⟩
    · rw [htr, hft]
    · rw [List.filter_append, ← hft, hnm]
      cases cfg.arg_private_lib <;> simp [is_mount]
    · split
      · simp only [List.filter_append, filter_staging_mount_bind]
        cases cfg.arg_private_lib <;> simp [is_staging]
      · rfl
    · intro hlt
      split
      · rename_i hnone
        have := hfe hnone
        omega
      · rfl
    · intro hret
      rw [hex] at hret
      cases hst : (for_each (fun t => globbing h cfg t cfg.arg_private_lib)
          (tokens cfg.bin_private_keep)).exit with
      | none => exact hfe hst
      | some e => simp [hst] at hret
  · have hl : cfg.arg_private_lib = true := by
      by_contra hl
      exact hf fun hh => absurd hh hl
    have hfo : h.fopen cfg.RUN_LIB_BIN = false := by
      cases hfo : h.fopen cfg.RUN_LIB_BIN with
      | false => rfl
      | true => exact absurd (fun _ => hfo) hf
    have hfs := fs_private_bin_list_fopen_failed h cfg hl hfo
    refine ⟨0, [], Nat.zero_le _, ?_, ?_, rfl, fun _ => rfl, ?_⟩
    · rw [hfs, hl]
      rfl
    · rw [hl]
      rfl
    · intro hret
      rw [hfs] at hret
      simp at hret

/-- C14, as stated, fails: `/usr/bin/pipe` is a named pipe, not a regular file,
and `check_dir_or_file` returns `/usr/bin` for `pipe`. -/
theorem C14_fifo_accepted_counterexample :
    host_fifo.stat ("/usr/bin" ++ "/" ++ "pipe") = some FileType.fifo ∧
      check_dir_or_file host_fifo cfg_default "pipe" = some "/usr/bin" := by
  decide

/-- C14, amended: `check_dir_or_file name` returns a directory `d` only if `d`
is an enabled directory of `paths[]` and `stat` succeeds on `d/name` with a file
that is not a directory, so a candidate that is a directory is never accepted;
the file type is not looked at any further: in a directory other than
`/usr/local/bin` that is not skipped, a candidate of any type but directory
ends the scan with that directory as the result. -/
theorem C14_result_is_not_a_directory (h : Host) (cfg : Config) (name : String) :
    (∀ d : String, check_dir_or_file h cfg name = some d →
      d ∈ enabled_paths cfg ∧
        ∃ t, h.stat (d ++ "/" ++ name) = some t ∧ t ≠ FileType.dir) ∧
    (∀ (d : String) (rest : List String), h.stat (d ++ "/" ++ name) = some FileType.dir →
      check_dir_or_file_loop h cfg name (d :: rest) = check_dir_or_file_loop h cfg name rest) ∧
    (∀ (d : String) (rest : List String) (t : FileType), d ≠ "/usr/local/bin" →
      skip_local cfg d = false → h.stat (d ++ "/" ++ name) = some t → t ≠ FileType.dir →
      check_dir_or_file_loop h cfg name (d :: rest) = some d) := by
  refine ⟨?_, ?_, ?_⟩
  · intro d hd
    rw [check_dir_or_file_eq_find] at hd
    refine ⟨List.mem_of_find?_eq_some hd, ?_⟩
    have hacc := List.find?_some hd
    unfold accepted at hacc
    cases hs : h.stat (d ++ "/" ++ name) with
    | none => simp [hs] at hacc
    | some t =>
      refine ⟨t, rfl, ?_⟩
      intro ht
      simp [hs, ht, S_ISDIR] at hacc
  · intro d rest hst
    rw [check_dir_or_file_loop_cons]
    have hacc : accepted h d name = false := by
      simp [accepted, hst, S_ISDIR]
    rw [hacc]
    simp
  · intro d rest t hd hs hst ht
    have hacc : accepted h d name = true := by
      rw [accepted_of_ne h d name hd, hst]
      simpa [S_ISDIR] using ht
    rw [check_dir_or_file_loop_cons, hs, hacc]
    rfl

/-- C14, amended, on `host_fifo`: the result `/usr/bin` for `pipe` is enabled
and `/usr/bin/pipe` is not a directory. -/
theorem C14_result_is_not_a_directory_witness :
    "/usr/bin" ∈ enabled_paths cfg_default ∧
      ∃ t, host_fifo.stat ("/usr/bin" ++ "/" ++ "pipe") = some t ∧ t ≠ FileType.dir :=
  (C14_result_is_not_a_directory host_fifo cfg_default "pipe").1 "/usr/bin" (by decide)

/-- C16: every path `q` that `duplicate` hands to the copy helper or writes to
the manifest is either `d ++ "/" ++ f` for the enabled directory `d` that
`check_dir_or_file` returned for the name `f`, which starts with neither `/` nor
`~` and contains no `..`, or a path for which `valid_full_path_file` returned 1. -/
theorem C16_only_trusted_paths (h : Host) (cfg : Config) (f : String) (fplist : Bool) :
    (∀ args ∈ copies (duplicate h cfg f fplist).trace, ∃ q : String,
      (args = [cfg.PATH_FCOPY, q, cfg.RUN_BIN_DIR] ∨
        args = [cfg.PATH_FCOPY, "--follow-link", q, cfg.RUN_BIN_DIR]) ∧
      ((∃ d, check_dir_or_file h cfg f = some d ∧ d ∈ enabled_paths cfg ∧ q = d ++ "/" ++ f ∧
          (¬∃ r : String, f = "/" ++ r) ∧ (¬∃ r : String, f = "~" ++ r) ∧
          ¬∃ a b : String, f = a ++ ".." ++ b) ∨
        valid_full_path_file h cfg q = true)) ∧
    (∀ line ∈ manifest (duplicate h cfg f fplist).trace, ∃ q : String,
      line = q ++ "\n" ∧
      ((∃ d, check_dir_or_file h cfg f = some d ∧ d ∈ enabled_paths cfg ∧ q = d ++ "/" ++ f ∧
          (¬∃ r : String, f = "/" ++ r) ∧ (¬∃ r : String, f = "~" ++ r) ∧
          ¬∃ a b : String, f = a ++ ".." ++ b) ∨
        valid_full_path_file h cfg q = true)) := by
  cases ht : tilde_or_dotdot f with
  | true =>
    have hd : duplicate h cfg f fplist = ⟨[], some (Fatal.invalid_filename f)⟩ := by
      unfold duplicate
      rw [ht]
      rfl
    rw [hd]
    simp [copies, manifest]
  | false =>
    cases hv : h.invalid_filename f with
    | true =>
      have hd : duplicate h cfg f fplist = ⟨[], some (Fatal.general_check f)⟩ := by
        unfold duplicate
        rw [ht, hv]
        rfl
      rw [hd]
      simp [copies, manifest]
    | false =>
      cases hr : resolve h cfg f with
      | none =>
        rw [duplicate_of_unresolved h cfg f fplist ht hv hr]
        simp [copies, manifest, Result.skip]
      | some p =>
        have hnt : ¬((∃ r : String, f = "~" ++ r) ∨ ∃ a b : String, f = a ++ ".." ++ b) := by
          rw [← tilde_or_dotdot_iff, ht]
          simp
        have hp : (∃ d, check_dir_or_file h cfg f = some d ∧ d ∈ enabled_paths cfg ∧
              p = d ++ "/" ++ f ∧
              (¬∃ r : String, f = "/" ++ r) ∧ (¬∃ r : String, f = "~" ++ r) ∧
              ¬∃ a b : String, f = a ++ ".." ++ b) ∨
            valid_full_path_file h cfg p = true := by
          rcases resolve_trusted h cfg f p hr with ⟨d, hc, hd, hpd, hns⟩ | ⟨-, -, hvp⟩
          · exact Or.inl ⟨d, hc, hd, hpd, hns, fun hx => hnt (Or.inl hx),
              fun hx => hnt (Or.inr hx)⟩
          · exact Or.inr hvp
        constructor
        · intro args ha
          rw [copies_duplicate h cfg f p fplist ht hv hr] at ha
          rcases copies_copy_file_mem h cfg p args ha with ha | ha | ⟨t, ha, hvt⟩
          · exact ⟨p, Or.inr ha, hp⟩
          · exact ⟨p, Or.inl ha, hp⟩
          · exact ⟨t, Or.inl ha, Or.inr hvt⟩
        · intro line hl
          rw [manifest_duplicate h cfg f p fplist ht hv hr] at hl
          cases fplist
          · simp at hl
          · simp only [if_true, List.mem_singleton] at hl
            exact ⟨p, hl, hp⟩

/-- C17, as stated, fails: `/usr/bin/pipe` is a named pipe, a non-regular file
that is a direct child of the enabled directory `/usr/bin`; it is accepted by
`valid_full_path_file`, and `check_dir_or_file` does not reject it either when
it is given as the bare name `pipe`. -/
theorem C17_pipe_accepted_by_both_counterexample :
    host_fifo.stat "/usr/bin/pipe" = some FileType.fifo ∧
      valid_full_path_file host_fifo cfg_default "/usr/bin/pipe" = true ∧
      check_dir_or_file host_fifo cfg_default "pipe" = some "/usr/bin" := by
  decide

/-- C17, amended: the result of `valid_full_path_file` is the same on two hosts
that give the same canonical path for the name, under two configurations with
the same no-local option, whatever `stat` says.  So a direct child of an enabled
trusted directory that is its own canonical path is accepted whatever its file
type; when it is a directory, `check_dir_or_file` does not return that trusted
directory for its name, and when it is of any other type, `check_dir_or_file`
accepts it as well in a directory other than `/usr/local/bin`. -/
theorem C17_valid_ignores_file_type (h : Host) (cfg : Config) :
    (∀ (h2 : Host) (cfg2 : Config) (p : String), h.realpath p = h2.realpath p →
      cfg.private_bin_no_local = cfg2.private_bin_no_local →
      valid_full_path_file h cfg p = valid_full_path_file h2 cfg2 p) ∧
    (∀ d ∈ enabled_paths cfg, ∀ b : String, b ≠ "" → '/' ∉ b.data →
      h.realpath (d ++ "/" ++ b) = some (d ++ "/" ++ b) →
      valid_full_path_file h cfg (d ++ "/" ++ b) = true) ∧
    (∀ d ∈ enabled_paths cfg, ∀ b : String,
      h.stat (d ++ "/" ++ b) = some FileType.dir → check_dir_or_file h cfg b ≠ some d) ∧
    (∀ d ∈ enabled_paths cfg, ∀ (b : String) (t : FileType) (rest : List String),
      d ≠ "/usr/local/bin" → h.stat (d ++ "/" ++ b) = some t → t ≠ FileType.dir →
      check_dir_or_file_loop h cfg b (d :: rest) = some d) := by
  refine ⟨?_, ?_, ?_, ?_⟩
  · intro h2 cfg2 p hp hc
    unfold valid_full_path_file
    rw [hp]
    cases h2.realpath p with
    | none => rfl
    | some c =>
      simp only []
      cases strrchr c '/' with
      | none => rfl
      | some ptr =>
        simp only []
        rw [valid_full_path_file_loop_congr cfg cfg2 _ _ paths hc]
  · intro d hd b hb hs hrp
    rw [valid_full_path_file_iff]
    exact ⟨_, hrp, d, hd, b, hb, hs, rfl⟩
  · intro d _ b hst hc
    have hacc := (check_dir_or_file_accepted h cfg b d hc).2
    simp [accepted, hst, S_ISDIR] at hacc
  · intro d hd b t rest hne hst ht
    have hs : skip_local cfg d = false := ((mem_enabled_paths cfg d).mp hd).2
    have hacc : accepted h d b = true := by
      rw [accepted_of_ne h d b hne, hst]
      simpa [S_ISDIR] using ht
    rw [check_dir_or_file_loop_cons, hs, hacc]
    rfl

/-- C17, amended, on `host_dir`: the directory `/usr/bin/X11` is accepted as an
absolute path and not found as the bare name `X11`. -/
theorem C17_valid_ignores_file_type_witness :
    valid_full_path_file host_dir cfg_default ("/usr/bin" ++ "/" ++ "X11") = true ∧
      check_dir_or_file host_dir cfg_default "X11" ≠ some "/usr/bin" :=
  ⟨(C17_valid_ignores_file_type host_dir cfg_default).2.1 "/usr/bin" (by decide) "X11"
      (by decide) (by decide) (by decide),
   (C17_valid_ignores_file_type host_dir cfg_default).2.2.1 "/usr/bin" (by decide) "X11"
      (by decide)⟩

/-- C18: in a directory other than `/usr/local/bin` that is not skipped, a
candidate on which `stat` succeeds with a non-directory ends the scan there,
whatever `is_link` and `realpath` say about it; if no other enabled directory
holds the name, this directory is the result of `check_dir_or_file`.  With the
no-local option set the result depends on `stat` alone. -/
theorem C18_launcher_check_only_in_usr_local_bin (h : Host) (cfg : Config) (name : String) :
    (∀ (d : String) (rest : List String) (t : FileType), d ≠ "/usr/local/bin" →
      skip_local cfg d = false → h.stat (d ++ "/" ++ name) = some t → t ≠ FileType.dir →
      check_dir_or_file_loop h cfg name (d :: rest) = some d) ∧
    (∀ d ∈ enabled_paths cfg, ∀ t : FileType, d ≠ "/usr/local/bin" →
      h.stat (d ++ "/" ++ name) = some t → t ≠ FileType.dir →
      (∀ d2 ∈ enabled_paths cfg, d2 ≠ d → h.stat (d2 ++ "/" ++ name) = none) →
      check_dir_or_file h cfg name = some d) ∧
    (cfg.private_bin_no_local = true → ∀ h2 : Host, h2.stat = h.stat →
      check_dir_or_file h2 cfg name = check_dir_or_file h cfg name) := by
  have hacc : ∀ (d : String) (t : FileType), d ≠ "/usr/local/bin" →
      h.stat (d ++ "/" ++ name) = some t → t ≠ FileType.dir → accepted h d name = true := by
    intro d t hd hst ht
    rw [accepted_of_ne h d name hd, hst]
    simpa [S_ISDIR] using ht
  refine ⟨?_, ?_, ?_⟩
  · intro d rest t hd hs hst ht
    rw [check_dir_or_file_loop_cons, hs, hacc d t hd hst ht]
    rfl
  · intro d hd t hne hst ht hu
    rw [check_dir_or_file_eq_find]
    apply find_unique _ _ d hd (hacc d t hne hst ht)
    intro d2 hd2 hne2
    simp [accepted, hu d2 hd2 hne2]
  · intro hno h2 hst
    rw [check_dir_or_file_eq_find, check_dir_or_file_eq_find, enabled_paths_no_local cfg hno]
    apply find_congr
    intro d hd
    have hne : d ≠ "/usr/local/bin" := by
      simp only [List.mem_cons, List.mem_singleton, List.not_mem_nil, or_false] at hd
      rcases hd with rfl | rfl | rfl | rfl | rfl <;> decide
    rw [accepted_of_ne h2 d name hne, accepted_of_ne h d name hne, hst]

/-- C18 on `host_alias_usr_bin`: the link `/usr/bin/fj` to the launcher makes
`/usr/bin` the result for `fj`. -/
theorem C18_launcher_check_only_in_usr_local_bin_witness :
    host_alias_usr_bin.is_link "/usr/bin/fj" = true ∧
      host_alias_usr_bin.realpath "/usr/bin/fj" = some "/usr/bin/firejail" ∧
      check_dir_or_file host_alias_usr_bin cfg_default "fj" = some "/usr/bin" :=
  ⟨by decide, by decide,
   (C18_launcher_check_only_in_usr_local_bin host_alias_usr_bin cfg_default "fj").2.1
      "/usr/bin" (by decide) FileType.reg (by decide) (by decide) (by decide)
      (by decide)⟩

/-- C19 fails on the code: for the empty allowlist, and for one made of commas,
the first `strtok` returns the null pointer, which is handed to `globbing`, and
the run ends in `assert(fname)`. -/
theorem C19_null_token_reaches_globbing :
    tokens "" = [none] ∧ tokens ",," = [none] ∧
      fs_private_bin_list host_empty cfg_no_token
        = ⟨[Event.mkdir_attr "/run/firejail/mnt/bin"], some Fatal.assert_fname⟩ ∧
      fs_private_bin_list host_empty cfg_commas
        = ⟨[Event.mkdir_attr "/run/firejail/mnt/bin"], some Fatal.assert_fname⟩ := by
  decide

end FsBin
